import Mathlib

/-!
A verification development for the `bindecoder` repository.

The Python sources are shallowly embedded as Lean definitions:

* `decoder.py` — class `Decoder` (byte cursor with endianness control, a
  length-bounded sub-reader stack) and the structural sinks `Viewer`,
  `PlainViewer`, `DataViewer`.
* `qtdecode.py` — the recursive container driver `QtDecoder.atom`/`atoms`
  and the `hexdump` blob renderer (identical to `FLVDecoder.hexdump` in
  `flvdecode.py`).

Byte sources (Python file objects / `BytesIO`) are modelled as a list of
bytes together with a read offset; `stream.read(n)` returns up to `n`
bytes and advances the offset by the number of bytes actually returned,
exactly as `BytesIO.read` does.  Python exceptions are modelled with
`Except`, where the error value carries the state of the decoder at the
moment the exception crosses the relevant boundary (Python mutations
performed before a `raise` persist).  Calls made to the output view are
recorded as a trace of events in the state, so that properties of the
sink protocol can be stated.
-/

/-- Error taxonomy.  `endOfData` is Python's `EOFError` raised by
`Decoder.read`; `popEmpty` is the `IndexError` raised by `list.pop()` on an
empty stack; `outOfFuel` is an artefact of the bounded modelling of the
`while` loop in `qtdecode.atoms`; `userErr` stands for any exception raised
inside a driver handler body. -/
inductive Err where
  | endOfData
  | popEmpty
  | outOfFuel
  | userErr (code : Nat)
deriving DecidableEq, Repr

/-- A name passed to `Viewer.set` / `Viewer.enter_map` / `Viewer.enter_array`:
Python call sites pass either a string or an integer index. -/
inductive DName where
  | str (s : String)
  | idx (n : Nat)
deriving DecidableEq, Repr

/-- A value stored in the output tree.  Scalar reads produce integers
(`f4`/`f8` are represented by their raw bit pattern: IEEE interpretation of
the pattern is out of the spec's scope and irrelevant to every claim, the
error behaviour being identical).  `hexLine` is one rendered line of a hex
dump, carrying the bytes it shows; `map`/`arr` are the containers built by
`DataViewer`. -/
inductive DVal where
  | int (n : Int)
  | str (s : String)
  | hexLine (bs : List Nat)
  | map (entries : List (DName × DVal))
  | arr (elems : List DVal)

/-- One call made to the view (the structural sink). -/
inductive VEvent where
  | enterMap (name : DName)
  | enterArray (name : DName)
  | exitScope
  | setV (name : DName) (v : DVal)

/-- A byte source: backing bytes plus the current read offset
(`BytesIO` / a file object). -/
structure ByteStream where
  data : List Nat
  off : Nat

/-- `stream.read(n)`: return up to `n` bytes from the current offset and
advance the offset by the number of bytes returned. -/
def ByteStream.readN (s : ByteStream) (n : Nat) : List Nat × ByteStream :=
  let d := (s.data.drop s.off).take n
  (d, ⟨s.data, s.off + d.length⟩)

/-- `stream.read()`: return the whole remainder. -/
def ByteStream.readAll (s : ByteStream) : List Nat × ByteStream :=
  let d := s.data.drop s.off
  (d, ⟨s.data, s.off + d.length⟩)

/-- Number of bytes remaining in the source. -/
def ByteStream.remaining (s : ByteStream) : Nat :=
  s.data.length - s.off

/-- The state of class `Decoder` (decoder.py, lines 11-17): the active
stream, the position counter `self.pos`, the endianness flag (`self.end`
holds the struct prefix, `'>'` when big-endian — modelled as the Boolean
`bigE`), and `self.stream_stack`.  The `events` field is the recorded trace
of calls the decoder and driver made to `self.view`. -/
structure Decoder where
  stream : ByteStream
  pos : Nat
  bigE : Bool
  stream_stack : List (ByteStream × Nat)
  events : List VEvent

/-- Append one view call to the recorded trace. -/
def pushEv (e : VEvent) (d : Decoder) : Decoder :=
  { d with events := d.events ++ [e] }

/-- Append several view calls to the recorded trace. -/
def pushEvs (es : List VEvent) (d : Decoder) : Decoder :=
  { d with events := d.events ++ es }

/-- `Decoder.read` (decoder.py, lines 65-75).  With no size the whole
remainder is returned; with an explicit size, `EOFError` is raised when the
stream returned fewer bytes than requested — note that the raise happens
after the underlying stream has already consumed the short data, and before
`self.pos` is updated. -/
def Decoder.read (size : Option Nat) (d : Decoder) :
    Except (Err × Decoder) (List Nat × Decoder) :=
  match size with
  | none =>
    let r := d.stream.readAll
    .ok (r.1, { d with stream := r.2, pos := d.pos + r.1.length })
  | some n =>
    let r := d.stream.readN n
    if r.1.length < n then
      .error (.endOfData, { d with stream := r.2 })
    else
      .ok (r.1, { d with stream := r.2, pos := d.pos + r.1.length })

/-- `Decoder.seek` (decoder.py, lines 77-80): reposition the underlying
stream and reset the position counter to the absolute target. -/
def Decoder.seek (position : Nat) (d : Decoder) : Decoder :=
  { d with stream := ⟨d.stream.data, position⟩, pos := position }

/-- The struct format code of a scalar: unsigned integer, signed integer,
or floating point (`f4`/`f8`; kept as the raw bit pattern). -/
inductive SCode where
  | u
  | i
  | f
deriving DecidableEq, Repr

/-- Assemble the bytes of one scalar into a natural number according to the
active endianness. -/
def bytesVal (bigE : Bool) (bs : List Nat) : Nat :=
  if bigE then bs.foldl (fun a b => a * 256 + b) 0
  else bs.reverse.foldl (fun a b => a * 256 + b) 0

/-- `struct.unpack` of one fixed-width value from exactly `bs.length`
bytes.  Signed codes take the two's complement reading; float codes keep
the raw bit pattern (see `DVal`). -/
def decodeScalar (bigE : Bool) (code : SCode) (bs : List Nat) : Int :=
  let v : Nat := bytesVal bigE bs
  match code with
  | .u => (v : Int)
  | .f => (v : Int)
  | .i =>
    let m : Nat := 2 ^ (8 * bs.length)
    if 2 * v < m then (v : Int) else (v : Int) - (m : Int)

/-- `Decoder.scalar` (decoder.py, lines 59-63): read `size` bytes, unpack
one value with the active endianness, and when a name was given report it
to the view (`self.vset`, which calls `self.view.set`). -/
def Decoder.scalar (name : Option DName) (size : Nat) (code : SCode)
    (d : Decoder) : Except (Err × Decoder) (Int × Decoder) :=
  match Decoder.read (some size) d with
  | .error e => .error e
  | .ok (bs, d1) =>
    let v := decodeScalar d1.bigE code bs
    match name with
    | some nm => .ok (v, pushEv (.setV nm (.int v)) d1)
    | none => .ok (v, d1)

/-- `Decoder.u1` (decoder.py): unsigned 8-bit integer. -/
def Decoder.u1 (name : Option DName) (d : Decoder) :
    Except (Err × Decoder) (Int × Decoder) := Decoder.scalar name 1 .u d

/-- `Decoder.i1`: signed 8-bit integer. -/
def Decoder.i1 (name : Option DName) (d : Decoder) :
    Except (Err × Decoder) (Int × Decoder) := Decoder.scalar name 1 .i d

/-- `Decoder.u2`: unsigned 16-bit integer. -/
def Decoder.u2 (name : Option DName) (d : Decoder) :
    Except (Err × Decoder) (Int × Decoder) := Decoder.scalar name 2 .u d

/-- `Decoder.i2`: signed 16-bit integer. -/
def Decoder.i2 (name : Option DName) (d : Decoder) :
    Except (Err × Decoder) (Int × Decoder) := Decoder.scalar name 2 .i d

/-- `Decoder.u4`: unsigned 32-bit integer. -/
def Decoder.u4 (name : Option DName) (d : Decoder) :
    Except (Err × Decoder) (Int × Decoder) := Decoder.scalar name 4 .u d

/-- `Decoder.i4`: signed 32-bit integer. -/
def Decoder.i4 (name : Option DName) (d : Decoder) :
    Except (Err × Decoder) (Int × Decoder) := Decoder.scalar name 4 .i d

/-- `Decoder.u8`: unsigned 64-bit integer. -/
def Decoder.u8 (name : Option DName) (d : Decoder) :
    Except (Err × Decoder) (Int × Decoder) := Decoder.scalar name 8 .u d

/-- `Decoder.i8`: signed 64-bit integer. -/
def Decoder.i8 (name : Option DName) (d : Decoder) :
    Except (Err × Decoder) (Int × Decoder) := Decoder.scalar name 8 .i d

/-- `Decoder.f4`: 32-bit floating point (raw bit pattern, see `DVal`). -/
def Decoder.f4 (name : Option DName) (d : Decoder) :
    Except (Err × Decoder) (Int × Decoder) := Decoder.scalar name 4 .f d

/-- `Decoder.f8`: 64-bit floating point (raw bit pattern, see `DVal`). -/
def Decoder.f8 (name : Option DName) (d : Decoder) :
    Except (Err × Decoder) (Int × Decoder) := Decoder.scalar name 8 .f d

/-- Scope entry of `Decoder.substream` (decoder.py, lines 84-87) after the
eager read has produced `data`: make a fresh cursor over `data` active at
position 0 and push the previous (stream, pos) pair. -/
def subEnter (data : List Nat) (d1 : Decoder) : Decoder :=
  { d1 with stream := ⟨data, 0⟩, pos := 0,
            stream_stack := (d1.stream, d1.pos) :: d1.stream_stack }

/-- `self.stream, self.pos = self.stream_stack.pop()` — the `finally`
clause of `Decoder.substream`.  Popping an empty stack is Python's
`IndexError`. -/
def popRestore (d3 : Decoder) : Except (Err × Decoder) Decoder :=
  match d3.stream_stack with
  | [] => .error (.popEmpty, d3)
  | (st, p) :: rest =>
    .ok { d3 with stream := st, pos := p, stream_stack := rest }

/-- Scope exit of `Decoder.substream`: the `finally` pop runs on every exit
path; if the body raised, the restored state carries the original
exception (unless the pop itself raises, which replaces it). -/
def subExit : Except (Err × Decoder) Decoder → Except (Err × Decoder) Decoder
  | .ok d3 => popRestore d3
  | .error (e, d3) =>
    match popRestore d3 with
    | .ok d4 => .error (e, d4)
    | .error e2 => .error e2

/-- `Decoder.substream` (decoder.py, lines 82-91), generalised over the
entry read (the driver `qtdecode.atom` passes `size - 8`, which in Python
can be negative, in which case `stream.read` returns the whole remainder —
see `qtAtom`).  The body is the scoped block run with the sub-cursor
active. -/
def Decoder.substreamWith
    (rd : Decoder → Except (Err × Decoder) (List Nat × Decoder))
    (body : Decoder → Except (Err × Decoder) Decoder)
    (d : Decoder) : Except (Err × Decoder) Decoder :=
  match rd d with
  | .error e => .error e
  | .ok (data, d1) => subExit (body (subEnter data d1))

/-- `Decoder.substream(size)` with the literal eager read of `size` bytes. -/
def Decoder.substream (size : Nat)
    (body : Decoder → Except (Err × Decoder) Decoder)
    (d : Decoder) : Except (Err × Decoder) Decoder :=
  Decoder.substreamWith (Decoder.read (some size)) body d

/-- Scope exit of `Decoder.endian` (decoder.py, lines 93-99): restore the
saved endianness on every exit path. -/
def endianExit (old : Bool) :
    Except (Err × Decoder) Decoder → Except (Err × Decoder) Decoder
  | .ok d2 => .ok { d2 with bigE := old }
  | .error (e, d2) => .error (e, { d2 with bigE := old })

/-- `Decoder.endian(big)`: override the endianness for a scoped block. -/
def Decoder.endian (big : Bool)
    (body : Decoder → Except (Err × Decoder) Decoder)
    (d : Decoder) : Except (Err × Decoder) Decoder :=
  endianExit d.bigE (body { d with bigE := big })

example :
    Decoder.read (some 2) ⟨⟨[7, 8, 9], 0⟩, 0, true, [], []⟩ =
      .ok ([7, 8], ⟨⟨[7, 8, 9], 2⟩, 2, true, [], []⟩) := by
  rfl

example :
    Decoder.read (some 4) ⟨⟨[7, 8, 9], 0⟩, 0, true, [], []⟩ =
      .error (.endOfData, ⟨⟨[7, 8, 9], 3⟩, 0, true, [], []⟩) := by
  rfl

example :
    Decoder.u2 none ⟨⟨[1, 2], 0⟩, 0, true, [], []⟩ =
      .ok (258, ⟨⟨[1, 2], 2⟩, 2, true, [], []⟩) := by
  rfl

/-- Whether a run outcome is an exception. -/
def resErr {ε α : Type} : Except ε α → Bool
  | .error _ => true
  | .ok _ => false

lemma length_take_drop (data : List Nat) (off n : Nat) :
    ((data.drop off).take n).length = min n (data.length - off) := by
  simp [List.length_take, List.length_drop]

lemma read_some_err_iff (n : Nat) (d : Decoder) :
    resErr (Decoder.read (some n) d) = true ↔ d.stream.remaining < n := by
  simp only [Decoder.read, ByteStream.readN, ByteStream.remaining]
  split
  · next h =>
    simp [List.length_take, List.length_drop] at h
    simp [resErr]
    omega
  · next h =>
    simp [List.length_take, List.length_drop] at h
    simp [resErr]
    omega

lemma scalar_err_eq (nm : Option DName) (sz : Nat) (c : SCode) (d : Decoder) :
    resErr (Decoder.scalar nm sz c d) = resErr (Decoder.read (some sz) d) := by
  simp only [Decoder.scalar]
  cases h : Decoder.read (some sz) d with
  | error e => simp [resErr]
  | ok r => cases nm <;> simp [resErr]

lemma read_some_ok (n : Nat) (d : Decoder) (bs : List Nat) (d1 : Decoder)
    (h : Decoder.read (some n) d = .ok (bs, d1)) :
    bs.length = n ∧ d1.pos = d.pos + n ∧
      d1.stream = ⟨d.stream.data, d.stream.off + n⟩ ∧
      d1.stream_stack = d.stream_stack ∧ d1.events = d.events := by
  simp only [Decoder.read, ByteStream.readN] at h
  split at h
  · exact absurd h (by simp)
  · next hlen =>
    rw [length_take_drop] at hlen
    have hbs : bs = (d.stream.data.drop d.stream.off).take n := by
      cases h; rfl
    have hlen2 : bs.length = n := by
      rw [hbs, length_take_drop]; omega
    cases h
    refine ⟨hlen2, ?_, ?_, rfl, rfl⟩ <;> simp [hlen2]

/-- The short-read error state of `Decoder.read(n)`: the underlying stream
has been drained of its remaining bytes but `self.pos` is untouched. -/
def readErrState (d : Decoder) : Decoder :=
  { d with stream := ⟨d.stream.data, d.stream.off + d.stream.remaining⟩ }

lemma read_some_err_state (n : Nat) (d : Decoder)
    (h : d.stream.remaining < n) :
    Decoder.read (some n) d = .error (.endOfData, readErrState d) := by
  simp only [Decoder.read, ByteStream.readN, readErrState]
  rw [length_take_drop]
  have hmin : min n (d.stream.data.length - d.stream.off) =
      d.stream.remaining := by
    simp only [ByteStream.remaining] at h ⊢; omega
  rw [if_pos (by simp only [ByteStream.remaining] at h ⊢; omega)]
  rw [hmin]

/-- C10 helper: the value and final state of a size-less read, in closed
form. -/
lemma read_none_eq (d : Decoder) :
    Decoder.read none d =
      .ok (d.stream.data.drop d.stream.off,
        { d with
            stream := ⟨d.stream.data,
              d.stream.off + (d.stream.data.drop d.stream.off).length⟩,
            pos := d.pos + (d.stream.data.drop d.stream.off).length }) := by
  rfl

/-- C10: `Decoder.read` with no size argument never raises: it returns
exactly the bytes remaining in the active source (possibly none) and
advances the position counter by the number of bytes returned; the
`EndOfData` condition concerns only explicitly sized reads. -/
theorem read_none_never_fails (d : Decoder) :
    Decoder.read none d =
      .ok (d.stream.data.drop d.stream.off,
        { d with
            stream := ⟨d.stream.data,
              d.stream.off + (d.stream.data.drop d.stream.off).length⟩,
            pos := d.pos + (d.stream.data.drop d.stream.off).length }) ∧
    (d.stream.data.drop d.stream.off).length = d.stream.remaining ∧
    resErr (Decoder.read none d) = false := by
  refine ⟨read_none_eq d, ?_, ?_⟩
  · simp [ByteStream.remaining]
  · rw [read_none_eq d]; rfl

/-- C2: an explicitly sized `Decoder.read(n)` raises `EndOfData` exactly
when fewer than `n` bytes remain in the active source, and otherwise
returns exactly `n` bytes advancing the position counter by `n`; each typed
reader (`u1/i1/u2/i2/u4/i4/u8/i8/f4/f8`) fails under the same condition for
its width; and `Decoder.substream(L)` performs its eager read at scope
entry, so it raises `EndOfData` — with a final state independent of the
body, which never runs — when fewer than `L` bytes are available. -/
theorem sized_reads_end_of_data (d : Decoder) (n : Nat) (nm : Option DName)
    (L : Nat) (body : Decoder → Except (Err × Decoder) Decoder) :
    (resErr (Decoder.read (some n) d) = true ↔ d.stream.remaining < n) ∧
    (∀ bs d1, Decoder.read (some n) d = .ok (bs, d1) →
      bs.length = n ∧ d1.pos = d.pos + n) ∧
    (resErr (Decoder.u1 nm d) = true ↔ d.stream.remaining < 1) ∧
    (resErr (Decoder.i1 nm d) = true ↔ d.stream.remaining < 1) ∧
    (resErr (Decoder.u2 nm d) = true ↔ d.stream.remaining < 2) ∧
    (resErr (Decoder.i2 nm d) = true ↔ d.stream.remaining < 2) ∧
    (resErr (Decoder.u4 nm d) = true ↔ d.stream.remaining < 4) ∧
    (resErr (Decoder.i4 nm d) = true ↔ d.stream.remaining < 4) ∧
    (resErr (Decoder.u8 nm d) = true ↔ d.stream.remaining < 8) ∧
    (resErr (Decoder.i8 nm d) = true ↔ d.stream.remaining < 8) ∧
    (resErr (Decoder.f4 nm d) = true ↔ d.stream.remaining < 4) ∧
    (resErr (Decoder.f8 nm d) = true ↔ d.stream.remaining < 8) ∧
    (d.stream.remaining < L →
      Decoder.substream L body d = .error (.endOfData, readErrState d)) := by
  refine ⟨read_some_err_iff n d,
    fun bs d1 h => ⟨(read_some_ok n d bs d1 h).1, (read_some_ok n d bs d1 h).2.1⟩,
    ?_, ?_, ?_, ?_, ?_, ?_, ?_, ?_, ?_, ?_, ?_⟩
  · rw [Decoder.u1, scalar_err_eq]; exact read_some_err_iff 1 d
  · rw [Decoder.i1, scalar_err_eq]; exact read_some_err_iff 1 d
  · rw [Decoder.u2, scalar_err_eq]; exact read_some_err_iff 2 d
  · rw [Decoder.i2, scalar_err_eq]; exact read_some_err_iff 2 d
  · rw [Decoder.u4, scalar_err_eq]; exact read_some_err_iff 4 d
  · rw [Decoder.i4, scalar_err_eq]; exact read_some_err_iff 4 d
  · rw [Decoder.u8, scalar_err_eq]; exact read_some_err_iff 8 d
  · rw [Decoder.i8, scalar_err_eq]; exact read_some_err_iff 8 d
  · rw [Decoder.f4, scalar_err_eq]; exact read_some_err_iff 4 d
  · rw [Decoder.f8, scalar_err_eq]; exact read_some_err_iff 8 d
  · intro h
    simp [Decoder.substream, Decoder.substreamWith, read_some_err_state L d h]

/-- A trivial scoped body, used to exercise theorems at concrete inputs. -/
def idBody : Decoder → Except (Err × Decoder) Decoder := fun t => .ok t

/-- A concrete three-byte decoder state. -/
def c2d : Decoder := ⟨⟨[1, 2, 3], 0⟩, 0, false, [], []⟩

theorem sized_reads_end_of_data_witness :
    ([1, 2] : List Nat).length = 2 ∧
    Decoder.substream 5 idBody c2d = .error (.endOfData, readErrState c2d) := by
  obtain ⟨h1, h2, _, _, _, _, _, _, _, _, _, _, h13⟩ :=
    sized_reads_end_of_data c2d 2 none 5 idBody
  exact ⟨(h2 [1, 2] ⟨⟨[1, 2, 3], 2⟩, 2, false, [], []⟩ rfl).1,
    h13 (by decide)⟩

/-- Errors raised by `DataViewer` (decoder.py, lines 189-198):
`dupKey` is the `KeyError` for a repeated map key (the spec's
`DuplicateKeyError`), `outOfSeq` the `IndexError` for a non-sequential
array index (the spec's `OutOfSequenceError`), `notContainer` the
`TypeError` Python would raise if the current node were not a container,
and `popEmptyDV` the `IndexError` of `exit` on an empty stack. -/
inductive DVErr where
  | dupKey
  | outOfSeq
  | notContainer
  | popEmptyDV
deriving DecidableEq, Repr

/-- The state of class `DataViewer` (decoder.py, lines 164-203): the stack
of suspended containers and the current container.  In Python a child
container is attached into its parent by reference at `enter_*` time and
then mutated in place; in this pure model each suspended parent on the
stack holds the placeholder in its last slot, which `exit` replaces with
the finished child. -/
structure DataViewer where
  stack : List DVal
  cur : DVal

/-- `DataViewer.set` (decoder.py, lines 189-198).  On a list, a `set` whose
name is not the next index raises (a string name never equals the integer
`len(self.cur)`); on a map, a `set` whose name is already a key raises.
Both raises happen before any mutation, so the error state carries the
viewer unchanged. -/
def DataViewer.set (dv : DataViewer) (name : DName) (value : DVal) :
    Except (DVErr × DataViewer) DataViewer :=
  match dv.cur with
  | .arr l =>
    match name with
    | .idx n =>
      if n = l.length then .ok { dv with cur := .arr (l ++ [value]) }
      else .error (.outOfSeq, dv)
    | .str _ => .error (.outOfSeq, dv)
  | .map l =>
    if name ∈ l.map Prod.fst then .error (.dupKey, dv)
    else .ok { dv with cur := .map (l ++ [(name, value)]) }
  | _ => .error (.notContainer, dv)

/-- `DataViewer.enter_map` (decoder.py, lines 174-178): set a fresh map
into the current container (this is where a duplicate key or bad index is
detected), push the current container, and make the fresh map current. -/
def DataViewer.enter_map (dv : DataViewer) (name : DName) :
    Except (DVErr × DataViewer) DataViewer :=
  match DataViewer.set dv name (.map []) with
  | .error e => .error e
  | .ok dv1 => .ok ⟨dv1.cur :: dv1.stack, .map []⟩

/-- `DataViewer.enter_array` (decoder.py, lines 180-184). -/
def DataViewer.enter_array (dv : DataViewer) (name : DName) :
    Except (DVErr × DataViewer) DataViewer :=
  match DataViewer.set dv name (.arr []) with
  | .error e => .error e
  | .ok dv1 => .ok ⟨dv1.cur :: dv1.stack, .arr []⟩

/-- Replace the value of the last entry of a map node. -/
def setLastEntry : List (DName × DVal) → DVal → List (DName × DVal)
  | [], _ => []
  | [(n, _)], c => [(n, c)]
  | x :: y :: xs, c => x :: setLastEntry (y :: xs) c

/-- Replace the last element of an array node. -/
def setLastElem : List DVal → DVal → List DVal
  | [], _ => []
  | [_], c => [c]
  | x :: y :: xs, c => x :: setLastElem (y :: xs) c

/-- Reattach a finished child into the slot of its placeholder — the last
slot of the parent, untouched since `enter_*` inserted it. -/
def attachChild (parent : DVal) (child : DVal) : DVal :=
  match parent with
  | .map l => .map (setLastEntry l child)
  | .arr l => .arr (setLastElem l child)
  | other => other

/-- `DataViewer.exit` (decoder.py, lines 186-187): pop the parent
container and make it current again, now holding the finished child. -/
def DataViewer.exit (dv : DataViewer) : Except (DVErr × DataViewer) DataViewer :=
  match dv.stack with
  | [] => .error (.popEmptyDV, dv)
  | parent :: rest => .ok ⟨rest, attachChild parent dv.cur⟩

/-- A sequence of `set` calls into the same scope, stopping at the first
raise — the shape of the per-scope `set` traffic a driver generates. -/
def DataViewer.setSeq (pairs : List (DName × DVal)) (dv : DataViewer) :
    Except (DVErr × DataViewer) DataViewer :=
  match pairs with
  | [] => .ok dv
  | (n, v) :: rest =>
    match DataViewer.set dv n v with
    | .error e => .error e
    | .ok dv1 => DataViewer.setSeq rest dv1

lemma setSeq_map_fresh (pairs : List (DName × DVal)) :
    ∀ (dv : DataViewer) (l : List (DName × DVal)) (dv' : DataViewer),
      dv.cur = .map l → DataViewer.setSeq pairs dv = .ok dv' →
      (pairs.map Prod.fst).Nodup ∧
        ∀ n ∈ pairs.map Prod.fst, n ∉ l.map Prod.fst := by
  induction pairs with
  | nil => intro dv l dv' _ _; simp
  | cons p rest ih =>
    intro dv l dv' hcur hrun
    obtain ⟨n, v⟩ := p
    simp only [DataViewer.setSeq] at hrun
    cases hset : DataViewer.set dv n v with
    | error e => rw [hset] at hrun; exact absurd hrun (by simp)
    | ok dv1 =>
      rw [hset] at hrun
      simp only [DataViewer.set, hcur] at hset
      by_cases hmem : n ∈ l.map Prod.fst
      · rw [if_pos hmem] at hset; exact absurd hset (by simp)
      · rw [if_neg hmem] at hset
        have hdv1 : dv1 = { dv with cur := .map (l ++ [(n, v)]) } := by
          cases hset; rfl
        have hcur1 : dv1.cur = .map (l ++ [(n, v)]) := by rw [hdv1]
        obtain ⟨hnd, hfresh⟩ := ih dv1 (l ++ [(n, v)]) dv' hcur1 hrun
        have hrestl : ∀ m ∈ rest.map Prod.fst, m ∉ l.map Prod.fst ∧ m ≠ n := by
          intro m hm
          have := hfresh m hm
          simp only [List.map_append, List.map_cons, List.map_nil,
            List.mem_append, List.mem_singleton] at this
          push_neg at this
          exact this
        constructor
        · simp only [List.map_cons, List.nodup_cons]
          exact ⟨fun hc => ((hrestl n hc).2 rfl), hnd⟩
        · intro m hm
          simp only [List.map_cons, List.mem_cons] at hm
          rcases hm with hm | hm
          · rw [hm]; exact hmem
          · exact (hrestl m hm).1

/-- C4: within a map scope of the tree sink, `set` with a name that is
already a key of the current map fails with `DuplicateKeyError` (and with
exactly that error) leaving the map unchanged, a fresh name is appended,
and therefore any successful sequence of `set` calls into a map scope uses
pairwise distinct names, all absent from the map before the sequence. -/
theorem dataviewer_map_set_unique (dv : DataViewer) (l : List (DName × DVal))
    (name : DName) (v : DVal) (hcur : dv.cur = .map l) :
    (DataViewer.set dv name v = .error (.dupKey, dv) ↔
      name ∈ l.map Prod.fst) ∧
    (name ∉ l.map Prod.fst →
      DataViewer.set dv name v = .ok { dv with cur := .map (l ++ [(name, v)]) }) ∧
    (∀ pairs dv', DataViewer.setSeq pairs dv = .ok dv' →
      (pairs.map Prod.fst).Nodup ∧
        ∀ n ∈ pairs.map Prod.fst, n ∉ l.map Prod.fst) := by
  refine ⟨?_, ?_, fun pairs dv' h => setSeq_map_fresh pairs dv l dv' hcur h⟩
  · constructor
    · intro h
      by_contra hmem
      simp only [DataViewer.set, hcur, if_neg hmem] at h
      exact absurd h (by simp)
    · intro hmem
      simp only [DataViewer.set, hcur, if_pos hmem]
  · intro hmem
    simp only [DataViewer.set, hcur, if_neg hmem]

/-- A concrete tree-sink state whose current container is a one-entry map. -/
def c4dv : DataViewer := ⟨[], .map [(.str "a", .int 1)]⟩

theorem dataviewer_map_set_unique_witness :
    DataViewer.set c4dv (.str "a") (.int 2) = .error (.dupKey, c4dv) ∧
    DataViewer.set c4dv (.str "b") (.int 2) =
      .ok ⟨[], .map [(.str "a", .int 1), (.str "b", .int 2)]⟩ := by
  obtain ⟨h1, h2, _⟩ :=
    dataviewer_map_set_unique c4dv [(.str "a", .int 1)] (.str "a") (.int 2) rfl
  obtain ⟨_, h2b, _⟩ :=
    dataviewer_map_set_unique c4dv [(.str "a", .int 1)] (.str "b") (.int 2) rfl
  refine ⟨h1.mpr (by simp), ?_⟩
  rw [h2b (by simp)]
  rfl

lemma set_arr_ok_name (dv : DataViewer) (l : List DVal) (name : DName)
    (v : DVal) (dv1 : DataViewer) (hcur : dv.cur = .arr l)
    (hset : DataViewer.set dv name v = .ok dv1) :
    name = .idx l.length ∧ dv1 = { dv with cur := .arr (l ++ [v]) } := by
  cases name with
  | str s => simp [DataViewer.set, hcur] at hset
  | idx k =>
    by_cases hk : k = l.length
    · subst hk
      simp only [DataViewer.set, hcur, if_pos rfl] at hset
      cases hset
      exact ⟨rfl, rfl⟩
    · simp [DataViewer.set, hcur, hk] at hset

lemma setSeq_arr_range (pairs : List (DName × DVal)) :
    ∀ (dv : DataViewer) (l : List DVal) (dv' : DataViewer),
      dv.cur = .arr l → DataViewer.setSeq pairs dv = .ok dv' →
      pairs.map Prod.fst = (List.range' l.length pairs.length).map DName.idx := by
  induction pairs with
  | nil => intro dv l dv' _ _; simp [List.range']
  | cons p rest ih =>
    intro dv l dv' hcur hrun
    obtain ⟨n, v⟩ := p
    simp only [DataViewer.setSeq] at hrun
    cases hset : DataViewer.set dv n v with
    | error e => rw [hset] at hrun; exact absurd hrun (by simp)
    | ok dv1 =>
      rw [hset] at hrun
      obtain ⟨hn, hdv1⟩ := set_arr_ok_name dv l n v dv1 hcur hset
      have hcur1 : dv1.cur = .arr (l ++ [v]) := by rw [hdv1]
      have hrest := ih dv1 (l ++ [v]) dv' hcur1 hrun
      simp only [List.map_cons, hn, hrest, List.length_append,
        List.length_cons, List.length_nil]
      rw [List.range']
      simp

/-- C5: within an array scope of the tree sink, `set` succeeds exactly when
the supplied index is the current length of the array (so the first `set`
into a fresh array must supply index 0, and a `set` supplying anything else
fails with `OutOfSequenceError` leaving the array unchanged); consequently
the indices of any successful sequence of `set` calls into a fresh array
are exactly 0, 1, 2, … with no gaps. -/
theorem dataviewer_array_set_sequential (dv : DataViewer) (l : List DVal)
    (name : DName) (v : DVal) (hcur : dv.cur = .arr l) :
    (name = .idx l.length →
      DataViewer.set dv name v = .ok { dv with cur := .arr (l ++ [v]) }) ∧
    (name ≠ .idx l.length →
      DataViewer.set dv name v = .error (.outOfSeq, dv)) ∧
    (l = [] → ∀ dv', DataViewer.set dv name v = .ok dv' → name = .idx 0) ∧
    (∀ pairs dv', DataViewer.setSeq pairs dv = .ok dv' →
      pairs.map Prod.fst = (List.range' l.length pairs.length).map DName.idx) := by
  refine ⟨?_, ?_, ?_, fun pairs dv' h => setSeq_arr_range pairs dv l dv' hcur h⟩
  · intro h; subst h; simp [DataViewer.set, hcur]
  · intro h
    cases name with
    | str s => simp [DataViewer.set, hcur]
    | idx k =>
      have hk : k ≠ l.length := fun hc => h (by rw [hc])
      simp [DataViewer.set, hcur, hk]
  · intro hl dv' hok
    have := (set_arr_ok_name dv l name v dv' hcur hok).1
    rw [this, hl]
    rfl

/-- A concrete tree-sink state whose current container is a fresh array. -/
def c5dv : DataViewer := ⟨[], .arr []⟩

theorem dataviewer_array_set_sequential_witness :
    DataViewer.set c5dv (.idx 1) (.int 5) = .error (.outOfSeq, c5dv) ∧
    ([(DName.idx 0, DVal.int 7), (DName.idx 1, DVal.int 8)].map Prod.fst =
      (List.range' 0 2).map DName.idx) := by
  obtain ⟨h1, h2, h3, h4⟩ :=
    dataviewer_array_set_sequential c5dv [] (.idx 1) (.int 5) rfl
  exact ⟨h2 (by decide),
    h4 [(.idx 0, .int 7), (.idx 1, .int 8)] ⟨[], .arr [.int 7, .int 8]⟩ rfl⟩

/-- The shape of a driver decode body: the operations a format driver may
perform through the core engine.  Scoped constructs (`substreamOp`,
`endianOp`, `mapScope`, `arrayScope`) carry their nested body, mirroring
the `with`-statement structure of the Python drivers; `readBind` lets the
continuation depend on the bytes just read (drivers branch on decoded
values); `failOp` stands for any exception a handler raises. -/
inductive Prog where
  | skip
  | seq (p q : Prog)
  | readOp (size : Option Nat)
  | readBind (size : Option Nat) (k : List Nat → Prog)
  | scalarOp (name : Option DName) (size : Nat) (code : SCode)
  | seekOp (tgt : Nat)
  | substreamOp (len : Nat) (body : Prog)
  | endianOp (big : Bool) (body : Prog)
  | setOp (name : DName) (v : DVal)
  | mapScope (name : DName) (body : Prog)
  | arrayScope (name : DName) (body : Prog)
  | failOp (e : Err)

/-- The `finally`-guaranteed exit of a `Viewer.map` / `Viewer.array` scope
(decoder.py, lines 109-123): `self.exit()` is called on both the normal and
the exceptional path. -/
def scopeExit : Except (Err × Decoder) Decoder → Except (Err × Decoder) Decoder
  | .ok s => .ok (pushEv .exitScope s)
  | .error (e, s) => .error (e, pushEv .exitScope s)

/-- Run a driver body on a decoder state.  Each case is the composition of
the embedded operations of `decoder.py`; the view scopes emit their
enter/exit events around the nested body exactly as the `contextmanager`
wrappers do. -/
def interp : Prog → Decoder → Except (Err × Decoder) Decoder
  | .skip, s => .ok s
  | .seq p q, s =>
    match interp p s with
    | .ok s1 => interp q s1
    | .error e => .error e
  | .readOp n, s =>
    match Decoder.read n s with
    | .ok (_, s1) => .ok s1
    | .error e => .error e
  | .readBind n k, s =>
    match Decoder.read n s with
    | .ok (data, s1) => interp (k data) s1
    | .error e => .error e
  | .scalarOp nm sz c, s =>
    match Decoder.scalar nm sz c s with
    | .ok (_, s1) => .ok s1
    | .error e => .error e
  | .seekOp tgt, s => .ok (Decoder.seek tgt s)
  | .substreamOp L body, s =>
    Decoder.substreamWith (Decoder.read (some L)) (fun t => interp body t) s
  | .endianOp b body, s => endianExit s.bigE (interp body { s with bigE := b })
  | .setOp nm v, s => .ok (pushEv (.setV nm v) s)
  | .mapScope nm body, s => scopeExit (interp body (pushEv (.enterMap nm) s))
  | .arrayScope nm body, s =>
    scopeExit (interp body (pushEv (.enterArray nm) s))
  | .failOp e, s => .error (e, s)

/-- The decoder state observable at the end of a run, successful or not. -/
def outState : Except (Err × Decoder) Decoder → Decoder
  | .ok s => s
  | .error (_, s) => s

example :
    interp (.substreamOp 2 (.readOp (some 1))) ⟨⟨[5, 6, 7], 0⟩, 0, true, [], []⟩ =
      .ok ⟨⟨[5, 6, 7], 2⟩, 2, true, [], []⟩ := by
  rfl

example :
    interp (.mapScope (.str "m") (.failOp (.userErr 3)))
        ⟨⟨[], 0⟩, 0, true, [], []⟩ =
      .error ((.userErr 3),
        ⟨⟨[], 0⟩, 0, true, [],
          [.enterMap (.str "m"), .exitScope]⟩) := by
  rfl

/-- The decoder state carried by a read result, successful or not. -/
def readOut : Except (Err × Decoder) (List Nat × Decoder) → Decoder
  | .ok (_, d) => d
  | .error (_, d) => d

/-- The decoder state carried by a scalar-read result. -/
def scalOut : Except (Err × Decoder) (Int × Decoder) → Decoder
  | .ok (_, d) => d
  | .error (_, d) => d

lemma readOut_fields (n : Option Nat) (d : Decoder) :
    (readOut (Decoder.read n d)).stream_stack = d.stream_stack ∧
    (readOut (Decoder.read n d)).events = d.events ∧
    (readOut (Decoder.read n d)).bigE = d.bigE := by
  cases n with
  | none => exact ⟨rfl, rfl, rfl⟩
  | some k =>
    simp only [Decoder.read]
    split
    · exact ⟨rfl, rfl, rfl⟩
    · exact ⟨rfl, rfl, rfl⟩

lemma scalOut_stack (nm : Option DName) (sz : Nat) (c : SCode) (d : Decoder) :
    (scalOut (Decoder.scalar nm sz c d)).stream_stack = d.stream_stack := by
  simp only [Decoder.scalar]
  cases h : Decoder.read (some sz) d with
  | error e =>
    have := (readOut_fields (some sz) d).1
    rw [h] at this
    obtain ⟨e1, d1⟩ := e
    exact this
  | ok r =>
    obtain ⟨bs, d1⟩ := r
    have := (readOut_fields (some sz) d).1
    rw [h] at this
    cases nm with
    | none => exact this
    | some nm => simpa [scalOut, pushEv] using this

lemma read_some_ok_eq (n : Nat) (d : Decoder) (h : n ≤ d.stream.remaining) :
    Decoder.read (some n) d =
      .ok ((d.stream.data.drop d.stream.off).take n,
        { d with stream := ⟨d.stream.data, d.stream.off + n⟩,
                 pos := d.pos + n }) := by
  simp only [Decoder.read, ByteStream.readN]
  have hlen : ((d.stream.data.drop d.stream.off).take n).length = n := by
    simp only [ByteStream.remaining] at h
    simp [List.length_take, List.length_drop]
    omega
  rw [hlen]
  rw [if_neg (lt_irrefl n)]

lemma outState_subExit (r : Except (Err × Decoder) Decoder) :
    (outState (subExit r)).events = (outState r).events ∧
    (outState (subExit r)).bigE = (outState r).bigE := by
  cases r with
  | ok d3 =>
    simp only [subExit, popRestore]
    cases h : d3.stream_stack with
    | nil => simp [outState]
    | cons hd tl => obtain ⟨st, p⟩ := hd; simp [outState]
  | error e =>
    obtain ⟨e1, d3⟩ := e
    simp only [subExit, popRestore]
    cases h : d3.stream_stack with
    | nil => simp [outState]
    | cons hd tl => obtain ⟨st, p⟩ := hd; simp [outState]

lemma outState_endianExit (b : Bool) (r : Except (Err × Decoder) Decoder) :
    (outState (endianExit b r)).events = (outState r).events ∧
    (outState (endianExit b r)).stream_stack = (outState r).stream_stack := by
  cases r with
  | ok d2 => exact ⟨rfl, rfl⟩
  | error e => obtain ⟨e1, d2⟩ := e; exact ⟨rfl, rfl⟩

lemma outState_scopeExit (r : Except (Err × Decoder) Decoder) :
    (outState (scopeExit r)).events = (outState r).events ++ [.exitScope] ∧
    (outState (scopeExit r)).stream_stack = (outState r).stream_stack := by
  cases r with
  | ok s => exact ⟨rfl, rfl⟩
  | error e => obtain ⟨e1, s⟩ := e; exact ⟨rfl, rfl⟩

/-- Every driver body built from the engine's operations leaves the
sub-reader scope stack as it found it, on success and on failure alike:
each `substream` entry is paired with the `finally`-guaranteed pop. -/
lemma interp_stack (p : Prog) : ∀ s : Decoder,
    (outState (interp p s)).stream_stack = s.stream_stack := by
  induction p with
  | skip => intro s; rfl
  | seq p q ihp ihq =>
    intro s
    simp only [interp]
    cases h : interp p s with
    | ok s1 =>
      have H1 := ihp s; rw [h] at H1
      have H2 := ihq s1
      simpa [outState] using H2.trans H1
    | error e =>
      have H1 := ihp s; rw [h] at H1
      exact H1
  | readOp n =>
    intro s
    simp only [interp]
    cases h : Decoder.read n s with
    | ok r =>
      obtain ⟨bs, s1⟩ := r
      have := (readOut_fields n s).1; rw [h] at this
      exact this
    | error e =>
      obtain ⟨e1, s1⟩ := e
      have := (readOut_fields n s).1; rw [h] at this
      exact this
  | readBind n k ih =>
    intro s
    simp only [interp]
    cases h : Decoder.read n s with
    | ok r =>
      obtain ⟨data, s1⟩ := r
      have H1 := (readOut_fields n s).1; rw [h] at H1
      exact (ih data s1).trans H1
    | error e =>
      obtain ⟨e1, s1⟩ := e
      have := (readOut_fields n s).1; rw [h] at this
      exact this
  | scalarOp nm sz c =>
    intro s
    simp only [interp]
    cases h : Decoder.scalar nm sz c s with
    | ok r =>
      obtain ⟨v, s1⟩ := r
      have := scalOut_stack nm sz c s; rw [h] at this
      exact this
    | error e =>
      obtain ⟨e1, s1⟩ := e
      have := scalOut_stack nm sz c s; rw [h] at this
      exact this
  | seekOp tgt => intro s; rfl
  | substreamOp L body ih =>
    intro s
    simp only [interp, Decoder.substreamWith]
    cases h : Decoder.read (some L) s with
    | error e =>
      obtain ⟨e1, s1⟩ := e
      have := (readOut_fields (some L) s).1; rw [h] at this
      exact this
    | ok r =>
      obtain ⟨data, s1⟩ := r
      have hstack1 : s1.stream_stack = s.stream_stack := by
        have := (readOut_fields (some L) s).1; rw [h] at this; exact this
      have hbody := ih (subEnter data s1)
      have hsub : (outState (interp body (subEnter data s1))).stream_stack =
          (s1.stream, s1.pos) :: s1.stream_stack := hbody
      cases hb : interp body (subEnter data s1) with
      | ok d3 =>
        rw [hb] at hsub
        simp only [outState] at hsub
        simp only [hb, subExit, popRestore, hsub, outState]
        exact hstack1
      | error e2 =>
        obtain ⟨e3, d3⟩ := e2
        rw [hb] at hsub
        simp only [outState] at hsub
        simp only [hb, subExit, popRestore, hsub, outState]
        exact hstack1
  | endianOp b body ih =>
    intro s
    simp only [interp]
    exact ((outState_endianExit s.bigE (interp body { s with bigE := b })).2).trans
      (ih { s with bigE := b })
  | setOp nm v => intro s; rfl
  | mapScope nm body ih =>
    intro s
    simp only [interp]
    exact ((outState_scopeExit (interp body (pushEv (.enterMap nm) s))).2).trans
      (ih (pushEv (.enterMap nm) s))
  | arrayScope nm body ih =>
    intro s
    simp only [interp]
    exact ((outState_scopeExit (interp body (pushEv (.enterArray nm) s))).2).trans
      (ih (pushEv (.enterArray nm) s))
  | failOp e => intro s; rfl

/-- C1: when `Decoder.substream(L)` is entered on a cursor with at least
`L` bytes remaining and any nested decode body is run inside it, then after
the scope exits — whether the body returned normally or raised — the
previous cursor is restored as the active stream, its source position has
advanced by exactly `L` relative to its value before the scope, the
position counter reads exactly `L` more than before, and the scope stack is
as before, regardless of how many of the `L` bytes the body consumed. -/
theorem substream_parent_advances (L : Nat) (body : Prog) (s : Decoder)
    (h : L ≤ s.stream.remaining) :
    (outState (interp (.substreamOp L body) s)).stream.data = s.stream.data ∧
    (outState (interp (.substreamOp L body) s)).stream.off = s.stream.off + L ∧
    (outState (interp (.substreamOp L body) s)).pos = s.pos + L ∧
    (outState (interp (.substreamOp L body) s)).stream_stack = s.stream_stack := by
  simp only [interp, Decoder.substreamWith, read_some_ok_eq L s h]
  have hsub := interp_stack body
    (subEnter ((s.stream.data.drop s.stream.off).take L)
      { s with stream := ⟨s.stream.data, s.stream.off + L⟩, pos := s.pos + L })
  cases hb : interp body
      (subEnter ((s.stream.data.drop s.stream.off).take L)
        { s with stream := ⟨s.stream.data, s.stream.off + L⟩,
                 pos := s.pos + L }) with
  | ok d3 =>
    rw [hb] at hsub
    simp only [outState, subEnter] at hsub
    simp only [hb, subExit, popRestore, hsub, outState]
    exact ⟨trivial, trivial, trivial, trivial⟩
  | error e2 =>
    obtain ⟨e3, d3⟩ := e2
    rw [hb] at hsub
    simp only [outState, subEnter] at hsub
    simp only [hb, subExit, popRestore, hsub, outState]
    exact ⟨trivial, trivial, trivial, trivial⟩

/-- A concrete four-byte decoder state. -/
def c1s : Decoder := ⟨⟨[1, 2, 3, 4], 0⟩, 0, true, [], []⟩

theorem substream_parent_advances_witness :
    (outState (interp (.substreamOp 2 (.readOp (some 1))) c1s)).pos =
      c1s.pos + 2 ∧
    (outState (interp (.substreamOp 2 (.readOp (some 1))) c1s)).stream.off =
      c1s.stream.off + 2 :=
  ⟨(substream_parent_advances 2 (.readOp (some 1)) c1s (by decide)).2.2.1,
   (substream_parent_advances 2 (.readOp (some 1)) c1s (by decide)).2.1⟩

/-- Whether a sink event is an `enter_map` or `enter_array` call. -/
def isEnter : VEvent → Bool
  | .enterMap _ => true
  | .enterArray _ => true
  | _ => false

/-- Whether a sink event is an `exit` call. -/
def isExit : VEvent → Bool
  | .exitScope => true
  | _ => false

/-- Number of `enter_map`/`enter_array` calls in a trace. -/
def enterCount (l : List VEvent) : Nat := l.countP isEnter

/-- Number of `exit` calls in a trace. -/
def exitCount (l : List VEvent) : Nat := l.countP isExit

lemma scalOut_events (nm : Option DName) (sz : Nat) (c : SCode) (d : Decoder) :
    enterCount (scalOut (Decoder.scalar nm sz c d)).events =
        enterCount d.events ∧
    exitCount (scalOut (Decoder.scalar nm sz c d)).events =
        exitCount d.events := by
  simp only [Decoder.scalar]
  cases h : Decoder.read (some sz) d with
  | error e =>
    obtain ⟨e1, d1⟩ := e
    have := (readOut_fields (some sz) d).2.1
    rw [h] at this
    simp only [readOut] at this
    simp [scalOut, this]
  | ok r =>
    obtain ⟨bs, d1⟩ := r
    have := (readOut_fields (some sz) d).2.1
    rw [h] at this
    simp only [readOut] at this
    cases nm with
    | none => simp [scalOut, this]
    | some nm =>
      simp [scalOut, pushEv, this, enterCount, exitCount,
        List.countP_append, List.countP_cons, isEnter, isExit]

/-- C3: in every run — whether it completes or fails at any nesting depth —
the view scopes emit enters and exits in balance: the number of
`enter_map` plus `enter_array` calls the sink observed equals the number of
`exit` calls (stated relative to the events already in the trace before the
run). -/
theorem sink_scope_balance (p : Prog) : ∀ s : Decoder,
    enterCount (outState (interp p s)).events + exitCount s.events =
      exitCount (outState (interp p s)).events + enterCount s.events := by
  induction p with
  | skip => intro s; simp only [interp, outState]; omega
  | seq p q ihp ihq =>
    intro s
    simp only [interp]
    cases h : interp p s with
    | ok s1 =>
      have H1 := ihp s; rw [h] at H1; simp only [outState] at H1
      have H2 := ihq s1
      show enterCount (outState (interp q s1)).events + exitCount s.events =
        exitCount (outState (interp q s1)).events + enterCount s.events
      omega
    | error e =>
      have H1 := ihp s; rw [h] at H1
      exact H1
  | readOp n =>
    intro s
    simp only [interp]
    cases h : Decoder.read n s with
    | ok r =>
      obtain ⟨bs, s1⟩ := r
      have := (readOut_fields n s).2.1; rw [h] at this
      simp only [readOut] at this
      show enterCount s1.events + exitCount s.events =
        exitCount s1.events + enterCount s.events
      rw [this]; omega
    | error e =>
      obtain ⟨e1, s1⟩ := e
      have := (readOut_fields n s).2.1; rw [h] at this
      simp only [readOut] at this
      show enterCount s1.events + exitCount s.events =
        exitCount s1.events + enterCount s.events
      rw [this]; omega
  | readBind n k ih =>
    intro s
    simp only [interp]
    cases h : Decoder.read n s with
    | ok r =>
      obtain ⟨data, s1⟩ := r
      have hev : s1.events = s.events := by
        have := (readOut_fields n s).2.1; rw [h] at this; exact this
      have H := ih data s1
      rw [hev] at H
      exact H
    | error e =>
      obtain ⟨e1, s1⟩ := e
      have := (readOut_fields n s).2.1; rw [h] at this
      simp only [readOut] at this
      show enterCount s1.events + exitCount s.events =
        exitCount s1.events + enterCount s.events
      rw [this]; omega
  | scalarOp nm sz c =>
    intro s
    simp only [interp]
    cases h : Decoder.scalar nm sz c s with
    | ok r =>
      obtain ⟨v, s1⟩ := r
      have := scalOut_events nm sz c s; rw [h] at this
      simp only [scalOut] at this
      show enterCount s1.events + exitCount s.events =
        exitCount s1.events + enterCount s.events
      omega
    | error e =>
      obtain ⟨e1, s1⟩ := e
      have := scalOut_events nm sz c s; rw [h] at this
      simp only [scalOut] at this
      show enterCount s1.events + exitCount s.events =
        exitCount s1.events + enterCount s.events
      omega
  | seekOp tgt =>
    intro s
    simp only [interp, outState, Decoder.seek]
    omega
  | substreamOp L body ih =>
    intro s
    simp only [interp, Decoder.substreamWith]
    cases h : Decoder.read (some L) s with
    | error e =>
      obtain ⟨e1, s1⟩ := e
      have := (readOut_fields (some L) s).2.1; rw [h] at this
      simp only [readOut] at this
      show enterCount s1.events + exitCount s.events =
        exitCount s1.events + enterCount s.events
      rw [this]; omega
    | ok r =>
      obtain ⟨data, s1⟩ := r
      have hev1 : s1.events = s.events := by
        have := (readOut_fields (some L) s).2.1; rw [h] at this; exact this
      have hbody := ih (subEnter data s1)
      have hsubev : (subEnter data s1).events = s.events := by
        simp [subEnter, hev1]
      rw [hsubev] at hbody
      have hout := (outState_subExit (interp body (subEnter data s1))).1
      show enterCount
          (outState (subExit (interp body (subEnter data s1)))).events +
          exitCount s.events =
        exitCount
          (outState (subExit (interp body (subEnter data s1)))).events +
          enterCount s.events
      rw [hout]
      exact hbody
  | endianOp b body ih =>
    intro s
    simp only [interp]
    have hout := (outState_endianExit s.bigE (interp body { s with bigE := b })).1
    have hbody := ih { s with bigE := b }
    rw [hout]
    exact hbody
  | setOp nm v =>
    intro s
    simp only [interp]
    show enterCount (pushEv (.setV nm v) s).events + exitCount s.events =
      exitCount (pushEv (.setV nm v) s).events + enterCount s.events
    simp [pushEv, enterCount, exitCount, List.countP_append,
      List.countP_cons, isEnter, isExit]
    omega
  | mapScope nm body ih =>
    intro s
    simp only [interp]
    have hout := (outState_scopeExit (interp body (pushEv (.enterMap nm) s))).1
    have hbody := ih (pushEv (.enterMap nm) s)
    rw [hout]
    rw [show (pushEv (VEvent.enterMap nm) s).events =
      s.events ++ [VEvent.enterMap nm] from rfl] at hbody
    simp [enterCount, exitCount, List.countP_append, List.countP_cons,
      isEnter, isExit] at hbody ⊢
    omega
  | arrayScope nm body ih =>
    intro s
    simp only [interp]
    have hout := (outState_scopeExit (interp body (pushEv (.enterArray nm) s))).1
    have hbody := ih (pushEv (.enterArray nm) s)
    rw [hout]
    rw [show (pushEv (VEvent.enterArray nm) s).events =
      s.events ++ [VEvent.enterArray nm] from rfl] at hbody
    simp [enterCount, exitCount, List.countP_append, List.countP_cons,
      isEnter, isExit] at hbody ⊢
    omega
  | failOp e => intro s; simp only [interp, outState]; omega

/-- Big-step evaluation of a driver body: the relational semantics of a
run.  One rule per control path of `interp`; deterministic state surgery
(the `finally` restores) is shared with the functional semantics through
`subExit` / `endianExit` / `scopeExit`. -/
inductive Eval : Prog → Decoder → Except (Err × Decoder) Decoder → Prop where
  | skipR (s : Decoder) : Eval .skip s (.ok s)
  | seqOk (p q : Prog) (s s1 : Decoder) (o : Except (Err × Decoder) Decoder)
      (h1 : Eval p s (.ok s1)) (h2 : Eval q s1 o) : Eval (.seq p q) s o
  | seqErr (p q : Prog) (s : Decoder) (e : Err × Decoder)
      (h : Eval p s (.error e)) : Eval (.seq p q) s (.error e)
  | readOk (n : Option Nat) (s : Decoder) (bs : List Nat) (s1 : Decoder)
      (h : Decoder.read n s = .ok (bs, s1)) : Eval (.readOp n) s (.ok s1)
  | readErr (n : Option Nat) (s : Decoder) (e : Err × Decoder)
      (h : Decoder.read n s = .error e) : Eval (.readOp n) s (.error e)
  | readBindOk (n : Option Nat) (k : List Nat → Prog) (s : Decoder)
      (data : List Nat) (s1 : Decoder) (o : Except (Err × Decoder) Decoder)
      (h : Decoder.read n s = .ok (data, s1)) (hk : Eval (k data) s1 o) :
      Eval (.readBind n k) s o
  | readBindErr (n : Option Nat) (k : List Nat → Prog) (s : Decoder)
      (e : Err × Decoder) (h : Decoder.read n s = .error e) :
      Eval (.readBind n k) s (.error e)
  | scalarOk (nm : Option DName) (sz : Nat) (c : SCode) (s : Decoder)
      (v : Int) (s1 : Decoder)
      (h : Decoder.scalar nm sz c s = .ok (v, s1)) :
      Eval (.scalarOp nm sz c) s (.ok s1)
  | scalarErr (nm : Option DName) (sz : Nat) (c : SCode) (s : Decoder)
      (e : Err × Decoder) (h : Decoder.scalar nm sz c s = .error e) :
      Eval (.scalarOp nm sz c) s (.error e)
  | seekR (tgt : Nat) (s : Decoder) :
      Eval (.seekOp tgt) s (.ok (Decoder.seek tgt s))
  | subReadErr (L : Nat) (body : Prog) (s : Decoder) (e : Err × Decoder)
      (h : Decoder.read (some L) s = .error e) :
      Eval (.substreamOp L body) s (.error e)
  | subRun (L : Nat) (body : Prog) (s : Decoder) (data : List Nat)
      (s1 : Decoder) (r : Except (Err × Decoder) Decoder)
      (h : Decoder.read (some L) s = .ok (data, s1))
      (hb : Eval body (subEnter data s1) r) :
      Eval (.substreamOp L body) s (subExit r)
  | endianR (b : Bool) (body : Prog) (s : Decoder)
      (r : Except (Err × Decoder) Decoder)
      (hb : Eval body { s with bigE := b } r) :
      Eval (.endianOp b body) s (endianExit s.bigE r)
  | setR (nm : DName) (v : DVal) (s : Decoder) :
      Eval (.setOp nm v) s (.ok (pushEv (.setV nm v) s))
  | mapR (nm : DName) (body : Prog) (s : Decoder)
      (r : Except (Err × Decoder) Decoder)
      (hb : Eval body (pushEv (.enterMap nm) s) r) :
      Eval (.mapScope nm body) s (scopeExit r)
  | arrayR (nm : DName) (body : Prog) (s : Decoder)
      (r : Except (Err × Decoder) Decoder)
      (hb : Eval body (pushEv (.enterArray nm) s) r) :
      Eval (.arrayScope nm body) s (scopeExit r)
  | failR (e : Err) (s : Decoder) : Eval (.failOp e) s (.error (e, s))

lemma eval_interp {p : Prog} {s : Decoder}
    {o : Except (Err × Decoder) Decoder} (h : Eval p s o) :
    interp p s = o := by
  induction h with
  | skipR s => rfl
  | seqOk p q s s1 o h1 h2 ih1 ih2 =>
    simp only [interp, ih1]
    exact ih2
  | seqErr p q s e h ih =>
    simp only [interp, ih]
  | readOk n s bs s1 h => simp only [interp, h]
  | readErr n s e h => simp only [interp, h]
  | readBindOk n k s data s1 o h hk ih =>
    simp only [interp, h]
    exact ih
  | readBindErr n k s e h => simp only [interp, h]
  | scalarOk nm sz c s v s1 h => simp only [interp, h]
  | scalarErr nm sz c s e h => simp only [interp, h]
  | seekR tgt s => rfl
  | subReadErr L body s e h =>
    simp only [interp, Decoder.substreamWith, h]
  | subRun L body s data s1 r h hb ih =>
    simp only [interp, Decoder.substreamWith, h, ih]
  | endianR b body s r hb ih => simp only [interp, ih]
  | setR nm v s => rfl
  | mapR nm body s r hb ih => simp only [interp, ih]
  | arrayR nm body s r hb ih => simp only [interp, ih]
  | failR e s => rfl

lemma interp_eval (p : Prog) : ∀ s : Decoder, Eval p s (interp p s) := by
  induction p with
  | skip => intro s; exact .skipR s
  | seq p q ihp ihq =>
    intro s
    cases h : interp p s with
    | ok s1 =>
      have h1 := ihp s; rw [h] at h1
      have h2 := ihq s1
      have := Eval.seqOk p q s s1 (interp q s1) h1 h2
      simpa [interp, h] using this
    | error e =>
      have h1 := ihp s; rw [h] at h1
      have := Eval.seqErr p q s e h1
      simpa [interp, h] using this
  | readOp n =>
    intro s
    cases h : Decoder.read n s with
    | ok r =>
      obtain ⟨bs, s1⟩ := r
      have := Eval.readOk n s bs s1 h
      simpa [interp, h] using this
    | error e =>
      have := Eval.readErr n s e h
      simpa [interp, h] using this
  | readBind n k ih =>
    intro s
    cases h : Decoder.read n s with
    | ok r =>
      obtain ⟨data, s1⟩ := r
      have := Eval.readBindOk n k s data s1 (interp (k data) s1) h (ih data s1)
      simpa [interp, h] using this
    | error e =>
      have := Eval.readBindErr n k s e h
      simpa [interp, h] using this
  | scalarOp nm sz c =>
    intro s
    cases h : Decoder.scalar nm sz c s with
    | ok r =>
      obtain ⟨v, s1⟩ := r
      have := Eval.scalarOk nm sz c s v s1 h
      simpa [interp, h] using this
    | error e =>
      have := Eval.scalarErr nm sz c s e h
      simpa [interp, h] using this
  | seekOp tgt => intro s; exact .seekR tgt s
  | substreamOp L body ih =>
    intro s
    cases h : Decoder.read (some L) s with
    | ok r =>
      obtain ⟨data, s1⟩ := r
      have := Eval.subRun L body s data s1
        (interp body (subEnter data s1)) h (ih (subEnter data s1))
      simpa [interp, Decoder.substreamWith, h] using this
    | error e =>
      have := Eval.subReadErr L body s e h
      simpa [interp, Decoder.substreamWith, h] using this
  | endianOp b body ih =>
    intro s
    exact .endianR b body s (interp body { s with bigE := b })
      (ih { s with bigE := b })
  | setOp nm v => intro s; exact .setR nm v s
  | mapScope nm body ih =>
    intro s
    exact .mapR nm body s (interp body (pushEv (.enterMap nm) s))
      (ih (pushEv (.enterMap nm) s))
  | arrayScope nm body ih =>
    intro s
    exact .arrayR nm body s (interp body (pushEv (.enterArray nm) s))
      (ih (pushEv (.enterArray nm) s))
  | failOp e => intro s; exact .failR e s

/-- The textual form of a name, as `PlainViewer` prints it. -/
def nameText : DName → String
  | .str s => s
  | .idx n => toString n

/-- The textual form of a value.  The exact repr-style quoting and the hex
column layout are out of the core's scope (spec, section 1); what matters
for the stated properties is that the text is a function of the value. -/
def valText : DVal → String
  | .int n => toString n
  | .str s => s
  | .hexLine bs => String.intercalate " " (bs.map (fun b => toString b))
  | .map _ => "dict"
  | .arr _ => "list"

/-- The indent prefix of `PlainViewer.show`: two spaces per level. -/
def indentText (level : Nat) : String :=
  String.mk (List.replicate (2 * level) ' ')

/-- One step of `PlainViewer` (decoder.py, lines 138-162): `enter_map` and
`enter_array` print the name and indent; `exit` dedents; `set` prints the
name/value line at the current level. -/
def plainStep : Nat × List String → VEvent → Nat × List String
  | (lvl, out), .enterMap nm =>
    (lvl + 1, out ++ [indentText lvl ++ nameText nm ++ ":"])
  | (lvl, out), .enterArray nm =>
    (lvl + 1, out ++ [indentText lvl ++ nameText nm ++ ":"])
  | (lvl, out), .exitScope => (lvl - 1, out)
  | (lvl, out), .setV nm v =>
    (lvl, out ++ [indentText lvl ++ nameText nm ++ " = " ++ valText v])

/-- The lines the text sink prints for a trace of view calls. -/
def plainRender (evs : List VEvent) : List String :=
  (evs.foldl plainStep (0, [])).2

/-- One view call applied to the tree sink. -/
def treeStep (dv : DataViewer) (e : VEvent) :
    Except (DVErr × DataViewer) DataViewer :=
  match e with
  | .enterMap nm => DataViewer.enter_map dv nm
  | .enterArray nm => DataViewer.enter_array dv nm
  | .exitScope => DataViewer.exit dv
  | .setV nm v => DataViewer.set dv nm v

/-- The tree the `DataViewer` sink builds from a trace of view calls,
starting from the fresh root map of its constructor. -/
def treeBuild (evs : List VEvent) : Except (DVErr × DataViewer) DataViewer :=
  evs.foldlM treeStep ⟨[], .map []⟩

/-- C9: decoding is deterministic: two runs of the same driver body on the
same input state reach the same outcome, and hence the text sink would
print identical lines and the tree sink would build structurally equal
trees from the two runs. -/
theorem decode_deterministic (p : Prog) (s : Decoder)
    (o1 o2 : Except (Err × Decoder) Decoder)
    (h1 : Eval p s o1) (h2 : Eval p s o2) :
    o1 = o2 ∧
    plainRender (outState o1).events = plainRender (outState o2).events ∧
    treeBuild (outState o1).events = treeBuild (outState o2).events := by
  have e1 := eval_interp h1
  have e2 := eval_interp h2
  have heq : o1 = o2 := e1 ▸ e2
  exact ⟨heq, by rw [heq], by rw [heq]⟩

/-- A concrete driver body: one map scope holding one named 16-bit read. -/
def c9p : Prog := .mapScope (.str "m") (.scalarOp (some (.str "x")) 2 .u)

/-- A concrete input state for the determinism witness. -/
def c9s : Decoder := ⟨⟨[1, 2, 3], 0⟩, 0, true, [], []⟩

theorem decode_deterministic_witness :
    interp c9p c9s = interp c9p c9s ∧
    plainRender (outState (interp c9p c9s)).events =
      plainRender (outState (interp c9p c9s)).events ∧
    treeBuild (outState (interp c9p c9s)).events =
      treeBuild (outState (interp c9p c9s)).events :=
  decode_deterministic c9p c9s (interp c9p c9s) (interp c9p c9s)
    (interp_eval c9p c9s) (interp_eval c9p c9s)

/-- A decoder state instrumented with the ghost quantity the spec's cursor
invariant speaks about: `consumed` counts the bytes delivered by completed
reads from the active cursor's own source since that cursor was created,
and `consumedStack` carries the same count for each suspended cursor on
the sub-reader stack. -/
structure IDec where
  dec : Decoder
  consumed : Nat
  consumedStack : List Nat

/-- `Decoder.read` with consumption accounting: a completed read delivers
`data.length` bytes from the active source; a failed read delivers nothing
(the short data is discarded by the raise). -/
def iRead (n : Option Nat) (i : IDec) :
    Except (Err × IDec) (List Nat × IDec) :=
  match Decoder.read n i.dec with
  | .ok (data, d1) => .ok (data, ⟨d1, i.consumed + data.length, i.consumedStack⟩)
  | .error (e, d1) => .error (e, ⟨d1, i.consumed, i.consumedStack⟩)

/-- `Decoder.scalar` with consumption accounting: a completed scalar read
delivers exactly its width. -/
def iScalar (nm : Option DName) (sz : Nat) (c : SCode) (i : IDec) :
    Except (Err × IDec) (Int × IDec) :=
  match Decoder.scalar nm sz c i.dec with
  | .ok (v, d1) => .ok (v, ⟨d1, i.consumed + sz, i.consumedStack⟩)
  | .error (e, d1) => .error (e, ⟨d1, i.consumed, i.consumedStack⟩)

/-- Sub-reader entry with accounting: the freshly created cursor has
consumed nothing yet; the suspended cursor's count is pushed. -/
def iSubEnter (data : List Nat) (i : IDec) : IDec :=
  ⟨subEnter data i.dec, 0, i.consumed :: i.consumedStack⟩

/-- The `finally` pop with accounting: restoring the suspended cursor also
restores its consumption count. -/
def iPopRestore (i : IDec) : Except (Err × IDec) IDec :=
  match i.dec.stream_stack with
  | [] => .error (.popEmpty, i)
  | (st, p) :: rest =>
    .ok ⟨{ i.dec with stream := st, pos := p, stream_stack := rest },
         i.consumedStack.headD 0, i.consumedStack.tail⟩

/-- Sub-reader exit with accounting, on both exit paths. -/
def iSubExit : Except (Err × IDec) IDec → Except (Err × IDec) IDec
  | .ok i3 => iPopRestore i3
  | .error (e, i3) =>
    match iPopRestore i3 with
    | .ok i4 => .error (e, i4)
    | .error e2 => .error e2

/-- Endian-scope exit; consumption is untouched. -/
def iEndianExit (old : Bool) :
    Except (Err × IDec) IDec → Except (Err × IDec) IDec
  | .ok i2 => .ok ⟨{ i2.dec with bigE := old }, i2.consumed, i2.consumedStack⟩
  | .error (e, i2) =>
    .error (e, ⟨{ i2.dec with bigE := old }, i2.consumed, i2.consumedStack⟩)

/-- View-scope exit; consumption is untouched. -/
def iScopeExit : Except (Err × IDec) IDec → Except (Err × IDec) IDec
  | .ok i2 => .ok ⟨pushEv .exitScope i2.dec, i2.consumed, i2.consumedStack⟩
  | .error (e, i2) =>
    .error (e, ⟨pushEv .exitScope i2.dec, i2.consumed, i2.consumedStack⟩)

/-- The interpreter of driver bodies instrumented with consumption
accounting.  Its decoder component is exactly `interp` (see
`iinterp_projects`); the ghost counters never influence control flow. -/
def iinterp : Prog → IDec → Except (Err × IDec) IDec
  | .skip, i => .ok i
  | .seq p q, i =>
    match iinterp p i with
    | .ok i1 => iinterp q i1
    | .error e => .error e
  | .readOp n, i =>
    match iRead n i with
    | .ok (_, i1) => .ok i1
    | .error e => .error e
  | .readBind n k, i =>
    match iRead n i with
    | .ok (data, i1) => iinterp (k data) i1
    | .error e => .error e
  | .scalarOp nm sz c, i =>
    match iScalar nm sz c i with
    | .ok (_, i1) => .ok i1
    | .error e => .error e
  | .seekOp tgt, i => .ok ⟨Decoder.seek tgt i.dec, i.consumed, i.consumedStack⟩
  | .substreamOp L body, i =>
    match iRead (some L) i with
    | .error e => .error e
    | .ok (data, i1) => iSubExit (iinterp body (iSubEnter data i1))
  | .endianOp b body, i =>
    iEndianExit i.dec.bigE
      (iinterp body ⟨{ i.dec with bigE := b }, i.consumed, i.consumedStack⟩)
  | .setOp nm v, i =>
    .ok ⟨pushEv (.setV nm v) i.dec, i.consumed, i.consumedStack⟩
  | .mapScope nm body, i =>
    iScopeExit
      (iinterp body ⟨pushEv (.enterMap nm) i.dec, i.consumed, i.consumedStack⟩)
  | .arrayScope nm body, i =>
    iScopeExit
      (iinterp body
        ⟨pushEv (.enterArray nm) i.dec, i.consumed, i.consumedStack⟩)
  | .failOp e, i => .error (e, i)

/-- Forget the ghost counters of an instrumented outcome. -/
def iproj : Except (Err × IDec) IDec → Except (Err × Decoder) Decoder
  | .ok i => .ok i.dec
  | .error (e, i) => .error (e, i.dec)

lemma iproj_iSubExit (r : Except (Err × IDec) IDec) :
    iproj (iSubExit r) = subExit (iproj r) := by
  cases r with
  | ok i3 =>
    simp only [iSubExit, subExit, iproj, iPopRestore, popRestore]
    cases h : i3.dec.stream_stack with
    | nil => simp [iproj]
    | cons hd tl => obtain ⟨st, p⟩ := hd; simp [iproj]
  | error e =>
    obtain ⟨e1, i3⟩ := e
    simp only [iSubExit, subExit, iproj, iPopRestore, popRestore]
    cases h : i3.dec.stream_stack with
    | nil => simp [iproj]
    | cons hd tl => obtain ⟨st, p⟩ := hd; simp [iproj]

lemma iproj_iEndianExit (b : Bool) (r : Except (Err × IDec) IDec) :
    iproj (iEndianExit b r) = endianExit b (iproj r) := by
  cases r with
  | ok i2 => rfl
  | error e => obtain ⟨e1, i2⟩ := e; rfl

lemma iproj_iScopeExit (r : Except (Err × IDec) IDec) :
    iproj (iScopeExit r) = scopeExit (iproj r) := by
  cases r with
  | ok i2 => rfl
  | error e => obtain ⟨e1, i2⟩ := e; rfl

/-- The instrumented interpreter is `interp` with ghost counters: the
decoder component of every outcome agrees. -/
lemma iinterp_projects (p : Prog) : ∀ i : IDec,
    iproj (iinterp p i) = interp p i.dec := by
  induction p with
  | skip => intro i; rfl
  | seq p q ihp ihq =>
    intro i
    simp only [iinterp, interp]
    cases hi : iinterp p i with
    | ok i1 =>
      have H := ihp i; rw [hi] at H; simp only [iproj] at H
      rw [← H]
      exact ihq i1
    | error e =>
      obtain ⟨e1, i1⟩ := e
      have H := ihp i; rw [hi] at H; simp only [iproj] at H
      rw [← H]
      rfl
  | readOp n =>
    intro i
    simp only [iinterp, interp, iRead]
    cases h : Decoder.read n i.dec with
    | ok r => obtain ⟨bs, d1⟩ := r; rfl
    | error e => obtain ⟨e1, d1⟩ := e; rfl
  | readBind n k ih =>
    intro i
    simp only [iinterp, interp, iRead]
    cases h : Decoder.read n i.dec with
    | ok r =>
      obtain ⟨data, d1⟩ := r
      exact ih data ⟨d1, i.consumed + data.length, i.consumedStack⟩
    | error e => obtain ⟨e1, d1⟩ := e; rfl
  | scalarOp nm sz c =>
    intro i
    simp only [iinterp, interp, iScalar]
    cases h : Decoder.scalar nm sz c i.dec with
    | ok r => obtain ⟨v, d1⟩ := r; rfl
    | error e => obtain ⟨e1, d1⟩ := e; rfl
  | seekOp tgt => intro i; rfl
  | substreamOp L body ih =>
    intro i
    simp only [iinterp, interp, Decoder.substreamWith, iRead]
    cases h : Decoder.read (some L) i.dec with
    | error e => obtain ⟨e1, d1⟩ := e; rfl
    | ok r =>
      obtain ⟨data, d1⟩ := r
      rw [iproj_iSubExit]
      rw [ih (iSubEnter data ⟨d1, i.consumed + data.length, i.consumedStack⟩)]
      rfl
  | endianOp b body ih =>
    intro i
    simp only [iinterp, interp]
    rw [iproj_iEndianExit]
    rw [ih ⟨{ i.dec with bigE := b }, i.consumed, i.consumedStack⟩]
  | setOp nm v => intro i; rfl
  | mapScope nm body ih =>
    intro i
    simp only [iinterp, interp]
    rw [iproj_iScopeExit]
    rw [ih ⟨pushEv (.enterMap nm) i.dec, i.consumed, i.consumedStack⟩]
  | arrayScope nm body ih =>
    intro i
    simp only [iinterp, interp]
    rw [iproj_iScopeExit]
    rw [ih ⟨pushEv (.enterArray nm) i.dec, i.consumed, i.consumedStack⟩]
  | failOp e => intro i; rfl

/-- The instrumented state observable at the end of a run. -/
def ioutState : Except (Err × IDec) IDec → IDec
  | .ok i => i
  | .error (_, i) => i

/-- The cursor invariant of the spec (section 3): the position counter of
the active cursor equals the bytes consumed from its own source since its
creation, and likewise for every suspended cursor on the sub-reader
stack. -/
def PosInv (i : IDec) : Prop :=
  i.dec.pos = i.consumed ∧
    i.dec.stream_stack.map Prod.snd = i.consumedStack

/-- Driver bodies that never call `Decoder.seek`. -/
def SeekFree : Prog → Prop
  | .skip => True
  | .seq p q => SeekFree p ∧ SeekFree q
  | .readOp _ => True
  | .readBind _ k => ∀ data, SeekFree (k data)
  | .scalarOp _ _ _ => True
  | .seekOp _ => False
  | .substreamOp _ body => SeekFree body
  | .endianOp _ body => SeekFree body
  | .setOp _ _ => True
  | .mapScope _ body => SeekFree body
  | .arrayScope _ body => SeekFree body
  | .failOp _ => True

lemma read_ok_pos (n : Option Nat) (d : Decoder) (bs : List Nat)
    (d1 : Decoder) (h : Decoder.read n d = .ok (bs, d1)) :
    d1.pos = d.pos + bs.length ∧ d1.stream_stack = d.stream_stack := by
  cases n with
  | none =>
    simp only [Decoder.read, Except.ok.injEq, Prod.mk.injEq] at h
    obtain ⟨ha, hb⟩ := h
    subst ha
    subst hb
    exact ⟨rfl, rfl⟩
  | some k =>
    simp only [Decoder.read] at h
    split at h
    · exact absurd h (by simp)
    · simp only [Except.ok.injEq, Prod.mk.injEq] at h
      obtain ⟨ha, hb⟩ := h
      subst ha
      subst hb
      exact ⟨rfl, rfl⟩

lemma read_err_pos (n : Option Nat) (d : Decoder) (e : Err) (d1 : Decoder)
    (h : Decoder.read n d = .error (e, d1)) :
    d1.pos = d.pos ∧ d1.stream_stack = d.stream_stack := by
  cases n with
  | none => simp only [Decoder.read] at h; exact absurd h (by simp)
  | some k =>
    simp only [Decoder.read] at h
    split at h
    · simp only [Except.error.injEq, Prod.mk.injEq] at h
      obtain ⟨ha, hb⟩ := h
      subst hb
      exact ⟨rfl, rfl⟩
    · exact absurd h (by simp)

lemma scalar_ok_pos (nm : Option DName) (sz : Nat) (c : SCode) (d : Decoder)
    (v : Int) (d1 : Decoder) (h : Decoder.scalar nm sz c d = .ok (v, d1)) :
    d1.pos = d.pos + sz ∧ d1.stream_stack = d.stream_stack := by
  simp only [Decoder.scalar] at h
  cases hr : Decoder.read (some sz) d with
  | error e => rw [hr] at h; exact absurd h (by simp)
  | ok r =>
    obtain ⟨bs, d2⟩ := r
    rw [hr] at h
    have hro := read_some_ok sz d bs d2 hr
    cases nm with
    | none =>
      simp only [Except.ok.injEq, Prod.mk.injEq] at h
      obtain ⟨_, hb⟩ := h
      subst hb
      exact ⟨hro.2.1, hro.2.2.2.1⟩
    | some nm =>
      simp only [Except.ok.injEq, Prod.mk.injEq] at h
      obtain ⟨_, hb⟩ := h
      subst hb
      exact ⟨hro.2.1, hro.2.2.2.1⟩

lemma scalar_err_pos (nm : Option DName) (sz : Nat) (c : SCode) (d : Decoder)
    (e : Err) (d1 : Decoder)
    (h : Decoder.scalar nm sz c d = .error (e, d1)) :
    d1.pos = d.pos ∧ d1.stream_stack = d.stream_stack := by
  simp only [Decoder.scalar] at h
  cases hr : Decoder.read (some sz) d with
  | error e2 =>
    obtain ⟨e3, d2⟩ := e2
    rw [hr] at h
    simp only [Except.error.injEq, Prod.mk.injEq] at h
    obtain ⟨_, hb⟩ := h
    subst hb
    exact read_err_pos (some sz) d e3 d2 hr
  | ok r =>
    obtain ⟨bs, d2⟩ := r
    rw [hr] at h
    cases nm <;> exact absurd h (by simp)

lemma iSubExit_posinv (r : Except (Err × IDec) IDec)
    (h : PosInv (ioutState r)) : PosInv (ioutState (iSubExit r)) := by
  cases r with
  | ok i3 =>
    simp only [ioutState] at h
    simp only [iSubExit, iPopRestore]
    cases hs : i3.dec.stream_stack with
    | nil => exact h
    | cons hd tl =>
      obtain ⟨st, p⟩ := hd
      have h2 := h.2
      rw [hs] at h2
      simp only [List.map_cons] at h2
      refine ⟨?_, ?_⟩ <;> (rw [← h2]; rfl)
  | error e =>
    obtain ⟨e1, i3⟩ := e
    simp only [ioutState] at h
    simp only [iSubExit, iPopRestore]
    cases hs : i3.dec.stream_stack with
    | nil => exact h
    | cons hd tl =>
      obtain ⟨st, p⟩ := hd
      have h2 := h.2
      rw [hs] at h2
      simp only [List.map_cons] at h2
      refine ⟨?_, ?_⟩ <;> (rw [← h2]; rfl)

lemma iEndianExit_posinv (b : Bool) (r : Except (Err × IDec) IDec)
    (h : PosInv (ioutState r)) : PosInv (ioutState (iEndianExit b r)) := by
  cases r with
  | ok i2 => exact ⟨h.1, h.2⟩
  | error e => obtain ⟨e1, i2⟩ := e; exact ⟨h.1, h.2⟩

lemma iScopeExit_posinv (r : Except (Err × IDec) IDec)
    (h : PosInv (ioutState r)) : PosInv (ioutState (iScopeExit r)) := by
  cases r with
  | ok i2 => exact ⟨h.1, h.2⟩
  | error e => obtain ⟨e1, i2⟩ := e; exact ⟨h.1, h.2⟩

/-- C8 (amended): for every run built from the engine's operations other
than `seek`, at every point — including after a failure — each cursor's
position counter equals the bytes consumed from that cursor's own source
since its creation: reads, typed reads and sub-reader entry/exit preserve
the invariant.  (`Decoder.seek` does not: see
`seek_breaks_pos_invariant`.) -/
theorem pos_equals_consumed (p : Prog) (hp : SeekFree p) : ∀ i : IDec,
    PosInv i → PosInv (ioutState (iinterp p i)) := by
  induction p with
  | skip => intro i hi; exact hi
  | seq p q ihp ihq =>
    intro i hi
    simp only [iinterp]
    cases h : iinterp p i with
    | ok i1 =>
      have H1 := ihp hp.1 i hi; rw [h] at H1
      exact ihq hp.2 i1 H1
    | error e =>
      have H1 := ihp hp.1 i hi; rw [h] at H1
      exact H1
  | readOp n =>
    intro i hi
    simp only [iinterp, iRead]
    cases h : Decoder.read n i.dec with
    | ok r =>
      obtain ⟨bs, d1⟩ := r
      have hro := read_ok_pos n i.dec bs d1 h
      show PosInv (⟨d1, i.consumed + bs.length, i.consumedStack⟩ : IDec)
      exact ⟨by rw [hro.1, hi.1], by rw [hro.2]; exact hi.2⟩
    | error e =>
      obtain ⟨e1, d1⟩ := e
      have hre := read_err_pos n i.dec e1 d1 h
      show PosInv (⟨d1, i.consumed, i.consumedStack⟩ : IDec)
      exact ⟨by rw [hre.1]; exact hi.1, by rw [hre.2]; exact hi.2⟩
  | readBind n k ih =>
    intro i hi
    simp only [iinterp, iRead]
    cases h : Decoder.read n i.dec with
    | ok r =>
      obtain ⟨data, d1⟩ := r
      have hro := read_ok_pos n i.dec data d1 h
      have hi1 : PosInv ⟨d1, i.consumed + data.length, i.consumedStack⟩ :=
        ⟨by rw [hro.1, hi.1], by rw [hro.2]; exact hi.2⟩
      exact ih data (hp data) _ hi1
    | error e =>
      obtain ⟨e1, d1⟩ := e
      have hre := read_err_pos n i.dec e1 d1 h
      show PosInv (⟨d1, i.consumed, i.consumedStack⟩ : IDec)
      exact ⟨by rw [hre.1]; exact hi.1, by rw [hre.2]; exact hi.2⟩
  | scalarOp nm sz c =>
    intro i hi
    simp only [iinterp, iScalar]
    cases h : Decoder.scalar nm sz c i.dec with
    | ok r =>
      obtain ⟨v, d1⟩ := r
      have hro := scalar_ok_pos nm sz c i.dec v d1 h
      show PosInv (⟨d1, i.consumed + sz, i.consumedStack⟩ : IDec)
      exact ⟨by rw [hro.1, hi.1], by rw [hro.2]; exact hi.2⟩
    | error e =>
      obtain ⟨e1, d1⟩ := e
      have hre := scalar_err_pos nm sz c i.dec e1 d1 h
      show PosInv (⟨d1, i.consumed, i.consumedStack⟩ : IDec)
      exact ⟨by rw [hre.1]; exact hi.1, by rw [hre.2]; exact hi.2⟩
  | seekOp tgt => intro i hi; exact absurd hp (by simp [SeekFree])
  | substreamOp L body ih =>
    intro i hi
    simp only [iinterp, iRead]
    cases h : Decoder.read (some L) i.dec with
    | error e =>
      obtain ⟨e1, d1⟩ := e
      have hre := read_err_pos (some L) i.dec e1 d1 h
      show PosInv (⟨d1, i.consumed, i.consumedStack⟩ : IDec)
      exact ⟨by rw [hre.1]; exact hi.1, by rw [hre.2]; exact hi.2⟩
    | ok r =>
      obtain ⟨data, d1⟩ := r
      have hro := read_ok_pos (some L) i.dec data d1 h
      have hi1 : PosInv ⟨d1, i.consumed + data.length, i.consumedStack⟩ :=
        ⟨by rw [hro.1, hi.1], by rw [hro.2]; exact hi.2⟩
      have hsub : PosInv (iSubEnter data ⟨d1, i.consumed + data.length,
          i.consumedStack⟩) := by
        constructor
        · rfl
        · simp only [iSubEnter, subEnter, List.map_cons]
          exact congrArg₂ List.cons hi1.1 hi1.2
      exact iSubExit_posinv _ (ih hp _ hsub)
  | endianOp b body ih =>
    intro i hi
    simp only [iinterp]
    exact iEndianExit_posinv _ _ (ih hp _ ⟨hi.1, hi.2⟩)
  | setOp nm v => intro i hi; exact ⟨hi.1, hi.2⟩
  | mapScope nm body ih =>
    intro i hi
    simp only [iinterp]
    exact iScopeExit_posinv _ (ih hp _ ⟨hi.1, hi.2⟩)
  | arrayScope nm body ih =>
    intro i hi
    simp only [iinterp]
    exact iScopeExit_posinv _ (ih hp _ ⟨hi.1, hi.2⟩)
  | failOp e => intro i hi; exact hi

/-- A concrete instrumented state over four bytes, satisfying the cursor
invariant. -/
def c8wi : IDec := ⟨⟨⟨[9, 9, 9, 9], 0⟩, 0, true, [], []⟩, 0, []⟩

theorem pos_equals_consumed_witness :
    PosInv (ioutState (iinterp
      (.substreamOp 3 (.readOp (some 1))) c8wi)) :=
  pos_equals_consumed (.substreamOp 3 (.readOp (some 1)))
    (by trivial) c8wi ⟨rfl, rfl⟩

/-- The seek-containing run refuting C8 as stated: read two bytes, then
seek back to the start. -/
def c8p : Prog := .seq (.readOp (some 2)) (.seekOp 0)

/-- The state c8p reaches: position was reset to 0 by the seek while two
bytes had been consumed from the source. -/
def c8broken : IDec := ⟨⟨⟨[9, 9, 9, 9], 0⟩, 0, true, [], []⟩, 2, []⟩

/-- C8 counterexample: from a state satisfying the invariant, the run
`read(2); seek(0)` completes with position 0 but 2 bytes consumed from the
cursor's source — `seek` does not preserve the claimed invariant. -/
theorem seek_breaks_pos_invariant :
    PosInv c8wi ∧
    iinterp c8p c8wi = .ok c8broken ∧
    ¬ PosInv c8broken := by
  refine ⟨⟨rfl, rfl⟩, rfl, ?_⟩
  intro h
  exact absurd h.1 (by decide)

/-- Split a byte list into consecutive chunks of at most `n` bytes (fuel
formulation so that evaluation is definitional). -/
def chunksOfGo (n : Nat) : Nat → List Nat → List (List Nat)
  | 0, _ => []
  | _, [] => []
  | fuel + 1, l => l.take n :: chunksOfGo n fuel (l.drop n)

/-- Split a byte list into consecutive chunks of at most `n` bytes. -/
def chunksOf (n : Nat) (l : List Nat) : List (List Nat) :=
  chunksOfGo n l.length l

lemma chunksOfGo_flatten (n : Nat) (hn : 1 ≤ n) :
    ∀ (fuel : Nat) (l : List Nat), l.length ≤ fuel →
      (chunksOfGo n fuel l).flatten = l := by
  intro fuel
  induction fuel with
  | zero =>
    intro l hl
    have : l = [] := List.eq_nil_of_length_eq_zero (by omega)
    rw [this]
    rfl
  | succ fuel ih =>
    intro l hl
    cases l with
    | nil => rfl
    | cons a l0 =>
      simp only [chunksOfGo, List.flatten_cons]
      rw [ih ((a :: l0).drop n) (by
        simp only [List.length_drop, List.length_cons]
        simp only [List.length_cons] at hl
        omega)]
      exact List.take_append_drop n (a :: l0)

lemma chunksOf_flatten (n : Nat) (hn : 1 ≤ n) (l : List Nat) :
    (chunksOf n l).flatten = l :=
  chunksOfGo_flatten n hn l.length l le_rfl

/-- Modelled from the spec: the `hexdumper` module (class `HexDumper`,
imported by qtdecode.py and flvdecode.py) is not among the sources.  Per
section 4.4 of the spec it turns a byte range into a finite sequence of
lines, each addressed by the cumulative offset of its first byte within
the range and showing the hexadecimal value of each byte; the conventional
sixteen bytes appear per line.  A line is modelled as the pair of its
offset and the bytes it shows (the exact column formatting is out of
scope, spec section 1). -/
def hexLines (data : List Nat) : List (Nat × List Nat) :=
  (chunksOf 16 data).enum.map (fun pr => (16 * pr.1, pr.2))

/-- Modelled from the spec: the textual offset label of a dump line
(qtdecode.py lines 221-224 takes it from the HexDumper line text and
zero-fills it; the exact text is out of scope). -/
def offName (off : Nat) : String :=
  (Nat.toDigits 16 off).asString

/-- The `putv` event for one hex dump line. -/
def lineEvent (pr : Nat × List Nat) : VEvent :=
  .setV (.str (offName pr.1)) (.hexLine pr.2)

/-- `QtDecoder.hexdump` (qtdecode.py, lines 221-226) = `FLVDecoder.hexdump`
(flvdecode.py, lines 132-137): emit one `putv` per line of the dump of
`data[:limit]`, then, when the data exceeds the limit, one `putv` of the
original total length under the name `dump_size`. -/
def hexdump (data : List Nat) (limit : Nat) : List VEvent :=
  (hexLines (data.take limit)).map lineEvent ++
    (if limit < data.length then
      [.setV (.str "dump_size") (.int data.length)]
    else [])

/-- The bytes shown by the hex-line events of a trace. -/
def lineBytes : VEvent → List Nat
  | .setV _ (.hexLine bs) => bs
  | _ => []

/-- All bytes rendered by the hex-line events of a trace, in order. -/
def renderedBytes (evs : List VEvent) : List Nat :=
  (evs.map lineBytes).flatten

lemma renderedBytes_lines (data : List Nat) :
    renderedBytes ((hexLines data).map lineEvent) = data := by
  unfold renderedBytes
  rw [List.map_map]
  have h1 : (hexLines data).map (lineBytes ∘ lineEvent) =
      (hexLines data).map Prod.snd :=
    List.map_congr_left (fun a _ => rfl)
  rw [h1]
  unfold hexLines
  rw [List.map_map]
  have h2 : (chunksOf 16 data).enum.map
      (Prod.snd ∘ fun pr : Nat × List Nat => (16 * pr.1, pr.2)) =
      (chunksOf 16 data).enum.map Prod.snd :=
    List.map_congr_left (fun a _ => rfl)
  rw [h2, List.enum_map_snd]
  exact chunksOf_flatten 16 (by omega) data

/-- C7: with the default display cap 256, the blob renderer shows exactly
the bytes of `data[:256]`: when the range exceeds the cap, exactly the
first 256 bytes are rendered as hex lines and one additional separate
`dump_size` leaf records the original total length; when the range fits
within the cap, all its bytes are rendered and the event list consists of
the hex lines only — no size leaf. -/
theorem hexdump_cap (data : List Nat) :
    renderedBytes (hexdump data 256) = data.take 256 ∧
    (data.length ≤ 256 →
      renderedBytes (hexdump data 256) = data ∧
      hexdump data 256 = (hexLines data).map lineEvent) ∧
    (256 < data.length →
      (renderedBytes (hexdump data 256)).length = 256 ∧
      hexdump data 256 =
        (hexLines (data.take 256)).map lineEvent ++
          [.setV (.str "dump_size") (.int data.length)]) := by
  have hmain : renderedBytes (hexdump data 256) = data.take 256 := by
    unfold hexdump renderedBytes
    rw [List.map_append, List.flatten_append]
    have htail : ((if 256 < data.length then
        [VEvent.setV (.str "dump_size") (.int data.length)]
      else []).map lineBytes).flatten = [] := by
      split <;> rfl
    rw [htail, List.append_nil]
    exact renderedBytes_lines (data.take 256)
  refine ⟨hmain, ?_, ?_⟩
  · intro hle
    constructor
    · rw [hmain]
      exact List.take_of_length_le hle
    · unfold hexdump
      rw [if_neg (by omega), List.append_nil, List.take_of_length_le hle]
  · intro hgt
    constructor
    · rw [hmain]
      simp [List.length_take]
      omega
    · unfold hexdump
      rw [if_pos hgt]

/-- The three-hundred-byte blob of the spec's test scenario. -/
def blob300 : List Nat := List.replicate 300 7

set_option maxRecDepth 10000 in
theorem hexdump_cap_witness :
    (renderedBytes (hexdump blob300 256)).length = 256 ∧
    hexdump blob300 256 =
      (hexLines (blob300.take 256)).map lineEvent ++
        [.setV (.str "dump_size") (.int 300)] :=
  (hexdump_cap blob300).2.2 (by decide)

/-- Decode a 4-byte fourcc as text, one character per byte
(`bytes.decode('iso-8859-1')`). -/
def latin1 (bs : List Nat) : String :=
  String.mk (bs.map Char.ofNat)

/-- `QtDecoder.s4` (qtdecode.py, lines 232-235): read a 4-byte string. -/
def qtS4 (d : Decoder) : Except (Err × Decoder) (String × Decoder) :=
  match Decoder.read (some 4) d with
  | .error e => .error e
  | .ok (b4, d1) => .ok (latin1 b4, d1)

/-- What `getattr(self, 'do_' + atype, None)` resolves to for an atom type:
nothing (fall through to the raw dump), the `atoms` recursion (the
container types `moov`/`trak`/`mdia`/`minf`/`stbl`/`udta` are bound
directly to `atoms`), or a leaf field decoder. -/
inductive QtHandler where
  | recurse
  | leaf (f : Decoder → Except (Err × Decoder) Decoder)

/-- The apostrophe used by the atom scope name `"'%s'" % atype`. -/
def quoteStr : String := String.singleton (Char.ofNat 39)

/-- The name under which an atom's map scope is entered. -/
def qtAtomName (atype : String) : String := quoteStr ++ atype ++ quoteStr

/-- `QtDecoder.atoms` (qtdecode.py, lines 18-20): `while self.atom(): pass`,
bounded by fuel (each completed atom consumes at least the 8 header bytes,
so real runs are finite; running out of fuel is reported as an artificial
error so that no behaviour is silently converted into success). -/
def qtAtomsLoop
    (atomFn : Decoder → Except (Err × Decoder) (Bool × Decoder)) :
    Nat → Decoder → Except (Err × Decoder) Decoder
  | 0, s => .error (.outOfFuel, s)
  | fuel + 1, s =>
    match atomFn s with
    | .ok (true, s1) => qtAtomsLoop atomFn fuel s1
    | .ok (false, s1) => .ok s1
    | .error e => .error e

/-- `QtDecoder.atom` (qtdecode.py, lines 22-40).  The length prefix read is
guarded by `except EOFError: return False`; a zero length prefix returns
`False`; otherwise the type is read (unguarded), a sub-reader is opened
over `size - 8` bytes — when `size < 8` that Python expression is negative
and `stream.read` of a negative count returns the whole remainder, i.e. a
size-less read — and inside it a map scope records `_size`, dispatches to
the handler if any, then dumps the unconsumed remainder. -/
def qtAtom (H : String → Option QtHandler) :
    Nat → Decoder → Except (Err × Decoder) (Bool × Decoder)
  | 0, s => .error (.outOfFuel, s)
  | fuel + 1, s =>
    match Decoder.u4 none s with
    | .error (_, s1) => .ok (false, s1)
    | .ok (size, s1) =>
      if size = 0 then .ok (false, s1)
      else
        match qtS4 s1 with
        | .error e => .error e
        | .ok (atype, s2) =>
          let bodyRun : Decoder → Except (Err × Decoder) Decoder := fun t =>
            let t1 := pushEv (.setV (.str "_size") (.int size))
              (pushEv (.enterMap (.str (qtAtomName atype))) t)
            let r2 :=
              match H atype with
              | some .recurse => qtAtomsLoop (fun u => qtAtom H fuel u) fuel t1
              | some (.leaf f) => f t1
              | none => .ok t1
            scopeExit
              (match r2 with
               | .error e => .error e
               | .ok t2 =>
                 match Decoder.read none t2 with
                 | .error e => .error e
                 | .ok (rest, t3) =>
                   .ok (if rest.isEmpty then t3
                        else pushEvs (hexdump rest 256) t3))
          let subRead := if size < 8 then Decoder.read none
            else Decoder.read (some (size.toNat - 8))
          match Decoder.substreamWith subRead bodyRun s2 with
          | .ok s9 => .ok (true, s9)
          | .error e => .error e

/-- `QtDecoder.atoms` as called from `run` and from the container handlers. -/
def qtAtoms (H : String → Option QtHandler) (fuel : Nat) (s : Decoder) :
    Except (Err × Decoder) Decoder :=
  qtAtomsLoop (fun t => qtAtom H fuel t) fuel s

lemma u4_err_state (s : Decoder) (h : s.stream.remaining < 4) :
    Decoder.u4 none s = .error (.endOfData, readErrState s) := by
  simp [Decoder.u4, Decoder.scalar, read_some_err_state 4 s h]

lemma decodeScalar_zero (b : Bool) : decodeScalar b .u [0, 0, 0, 0] = 0 := by
  cases b <;> rfl

lemma u4_zero (s : Decoder) (h4 : 4 ≤ s.stream.remaining)
    (hz : (s.stream.data.drop s.stream.off).take 4 = [0, 0, 0, 0]) :
    Decoder.u4 none s =
      .ok (0, { s with stream := ⟨s.stream.data, s.stream.off + 4⟩,
                       pos := s.pos + 4 }) := by
  simp only [Decoder.u4, Decoder.scalar, read_some_ok_eq 4 s h4, hz]
  rw [decodeScalar_zero]

/-- C6 (amended): the record loop of the Quicktime container driver
terminates without error when fewer than four bytes remain — the guarded
length-prefix read hits end of data and `atom` returns `False` — and
terminates without error when the length prefix equals the zero sentinel;
in particular, a top-level `atoms` loop whose very first header read yields
the sentinel terminates with zero child entries (no view events) and no
error.  (When the length prefix succeeds but the unguarded type read hits
end of data, an error propagates instead: see
`qt_atom_short_header_raises`.) -/
theorem qt_atom_terminators (H : String → Option QtHandler) (fuel : Nat)
    (s : Decoder) :
    (s.stream.remaining < 4 →
      qtAtom H (fuel + 1) s = .ok (false, readErrState s)) ∧
    (4 ≤ s.stream.remaining →
      (s.stream.data.drop s.stream.off).take 4 = [0, 0, 0, 0] →
      qtAtom H (fuel + 1) s =
        .ok (false, { s with stream := ⟨s.stream.data, s.stream.off + 4⟩,
                             pos := s.pos + 4 })) ∧
    (4 ≤ s.stream.remaining →
      (s.stream.data.drop s.stream.off).take 4 = [0, 0, 0, 0] →
      qtAtoms H (fuel + 1) s =
        .ok { s with stream := ⟨s.stream.data, s.stream.off + 4⟩,
                     pos := s.pos + 4 }) := by
  have hb : 4 ≤ s.stream.remaining →
      (s.stream.data.drop s.stream.off).take 4 = [0, 0, 0, 0] →
      qtAtom H (fuel + 1) s =
        .ok (false, { s with stream := ⟨s.stream.data, s.stream.off + 4⟩,
                             pos := s.pos + 4 }) := by
    intro h4 hz
    simp [qtAtom, u4_zero s h4 hz]
  refine ⟨?_, hb, ?_⟩
  · intro h
    simp [qtAtom, u4_err_state s h]
  · intro h4 hz
    simp only [qtAtoms, qtAtomsLoop, hb h4 hz]

/-- An empty handler table. -/
def qtNoH : String → Option QtHandler := fun _ => none

/-- Four bytes: a successful nonzero length prefix (16) with no bytes left
for the type identifier. -/
def qtC6s : Decoder := ⟨⟨[0, 0, 0, 16], 0⟩, 0, true, [], []⟩

/-- C6 counterexample: with four bytes remaining — insufficient for the
eight-byte length-prefix-and-type header — `atom` does not terminate the
loop cleanly: the length prefix reads 16, and the unguarded type read
raises `EndOfData`, which propagates. -/
theorem qt_atom_short_header_raises :
    qtC6s.stream.remaining = 4 ∧
    qtAtom qtNoH 3 qtC6s =
      .error (.endOfData, ⟨⟨[0, 0, 0, 16], 4⟩, 4, true, [], []⟩) :=
  ⟨rfl, rfl⟩

/-- Five bytes starting with the zero sentinel. -/
def qtC6z : Decoder := ⟨⟨[0, 0, 0, 0, 5], 0⟩, 0, true, [], []⟩

theorem qt_atom_terminators_witness :
    qtAtoms qtNoH 1 qtC6z =
      .ok ⟨⟨[0, 0, 0, 0, 5], 4⟩, 4, true, [], []⟩ := by
  have h := (qt_atom_terminators qtNoH 0 qtC6z).2.2 (by decide) (by decide)
  exact h
